import Mathlib

/-!
Verification of the pyre-check integration-test harness
(`scripts/run_integration_test.py`) and the pyre linter helper
(`scripts/pyre_linter.py`), via a shallow embedding of the scripts'
data model and control flow.

The embedding keeps the Python names where Lean allows it:
`poor_mans_rsync`, `Repository` (as `repoInit` / `repoNext`),
`run_pyre`, `run_integration_test`, `_watch_directory` (folded into the
trace semantics of `runIntegrationTest`), the `__main__` retry driver
(`driverLoop` / `driver`), `_resolve_typeshed_location`
(`resolveTypeshedLocation`) and `_get_local_pyre_project` (`getLocalPyreProject`).
-/

/-! ## Analysis-service client: `Repository.run_pyre`

`run_pyre` builds the command line
`[client, "--noninteractive", "--show-parse-errors", "--output=json", command, *arguments]`,
runs it with `subprocess.check_output`, catches `CalledProcessError`,
re-raises when the return code is not 0 or 1, and otherwise returns the
captured stdout (decoded).  The subprocess itself is modelled as a
function from the argv to an exit code plus captured stdout. -/

structure ProcResult where
  exitCode : Nat
  stdout : String
deriving DecidableEq

def pyreArgv (client command : String) (arguments : List String) : List String :=
  [client, "--noninteractive", "--show-parse-errors", "--output=json", command] ++ arguments

def run_pyre (proc : List String → ProcResult) (client command : String)
    (arguments : List String) : Except Nat String :=
  let r := proc (pyreArgv client command arguments)
  if r.exitCode = 0 ∨ r.exitCode = 1 then Except.ok r.stdout
  else Except.error r.exitCode

/-! ## Commit sequencing: `Repository.__init__` / `Repository.__next__`

`__init__` lists the commit directories, sorts the names ascending
(`list.sort`, lexicographic string order), makes an iterator, and applies
the first commit by calling `__next__` once; `__next__` pulls the next
name from the iterator (raising `StopIteration` when exhausted) and
applies it.  The sort is modelled with insertion sort, a stable sort with
respect to `≤` on `String`, matching `list.sort`'s specification. -/

structure RepoState where
  applied : List String
  remaining : List String
deriving DecidableEq

def repoInit (commits : List String) : Option RepoState :=
  match List.insertionSort (· ≤ ·) commits with
  | [] => none
  | c :: rest => some ⟨[c], rest⟩

def repoNext : RepoState → Option (String × RepoState)
  | ⟨_, []⟩ => none
  | ⟨app, c :: rest⟩ => some (c, ⟨app ++ [c], rest⟩)

/-- Apply `repoNext` until the commit iterator is exhausted. -/
def repoRunAux (app : List String) : List String → List String
  | [] => app
  | c :: rest => repoRunAux (app ++ [c]) rest

def repoRunAll (st : RepoState) : RepoState :=
  ⟨repoRunAux st.applied st.remaining, []⟩

/-! ## Consistency run: `run_integration_test` and `_watch_directory`

`run_integration_test` first checks `shutil.which("watchman")` and
returns 1 before doing anything else when the tool is missing.
Otherwise it creates the repository, enters the `_watch_directory`
context manager (which issues `watchman watch` before its `yield` and
`watchman watch-del` after it — the `yield` is *not* wrapped in
`try/finally`, so when the body raises, the exception is thrown at the
`yield` point and the `watch-del` line never executes), runs the body
(start, commit stepping, checks, stop), and in the `except` clause dumps
`run_pyre("rage")` and re-raises.  On normal completion it reports 1
when discrepancies were recorded (after dumping `rage`) and 0 otherwise.

The interior of the body (start / per-commit checks / stop) is abstracted
as a list of service actions plus the information whether it raised and
whether discrepancies were recorded. -/

inductive RAction where
  | createRepo
  | watch
  | unwatch
  | pyre (cmd : String)
deriving DecidableEq

inductive BodyRun where
  | normal (discrepancies : Bool) (acts : List RAction)
  | raised (acts : List RAction)

def runIntegrationTest (watchmanAvailable : Bool) (body : BodyRun) :
    Except Unit Nat × List RAction :=
  if !watchmanAvailable then (Except.ok 1, [])
  else
    match body with
    | .raised a =>
        (Except.error (), [RAction.createRepo, RAction.watch] ++ a ++ [RAction.pyre "rage"])
    | .normal disc a =>
        ((if disc then Except.ok 1 else Except.ok 0),
          [RAction.createRepo, RAction.watch] ++ a ++ [RAction.unwatch]
            ++ (if disc then [RAction.pyre "rage"] else []))

/-! ## Outer driver: the `__main__` retry loop

`retries` starts at 3.  Each iteration re-enters the original working
directory (`os.chdir(original_directory)`), runs the consistency test,
exits with its code when non-zero (`sys.exit` raises `SystemExit`, which
`except Exception` does not catch), otherwise runs the saved-state test
and exits with its result; any `Exception` from either phase decrements
`retries` and loops.  When `retries` reaches 0 the process exits 1.

An attempt's phases are modelled as outcomes (`raises`, or `returns c`);
`driverLoop` returns the final exit code, the number of attempts
executed, and the working directory the loop `chdir`s to at the start of
each attempt. -/

inductive PyOutcome where
  | raises
  | returns (code : Nat)
deriving DecidableEq

structure AttemptBehavior where
  integration : PyOutcome
  savedState : PyOutcome
deriving DecidableEq

def driverLoop (orig : String) (attempts : Nat → AttemptBehavior) :
    Nat → Nat → Nat × Nat × List String
  | i, 0 => (1, i, [])
  | i, r + 1 =>
    match (attempts i).integration with
    | .raises =>
        let (e, u, t) := driverLoop orig attempts (i + 1) r
        (e, u, orig :: t)
    | .returns ec =>
        if ec ≠ 0 then (ec, i + 1, [orig])
        else
          match (attempts i).savedState with
          | .raises =>
              let (e, u, t) := driverLoop orig attempts (i + 1) r
              (e, u, orig :: t)
          | .returns rc => (rc, i + 1, [orig])

def driver (orig : String) (attempts : Nat → AttemptBehavior) : Nat × Nat × List String :=
  driverLoop orig attempts 0 3

/-- A retried attempt: either the consistency phase raised, or it
returned 0 and the saved-state phase raised. -/
def retriedAttempt (a : AttemptBehavior) : Prop :=
  a.integration = PyOutcome.raises ∨
    (a.integration = PyOutcome.returns 0 ∧ a.savedState = PyOutcome.raises)

instance (a : AttemptBehavior) : Decidable (retriedAttempt a) := by
  unfold retriedAttempt; infer_instance

/-! ## Linter: `_get_local_pyre_project`

```
while path != "/":
    if os.path.isfile(f"{path}/.pyre_configuration.local") or os.path.isfile(
        f"{path}/.pyre_configuration"
    ):
        return path
    path = os.path.dirname(path)
return None
```

A path is modelled as absolute (component list; `PyPath.abs []` is `"/"`)
or relative (`PyPath.rel []` is `""`); `os.path.dirname` drops the last
component and is the identity on `"/"` and on `""`.  The pair of
`os.path.isfile` probes is a predicate on the probed directory.  The
unbounded `while` loop is given explicit fuel; `none` means the fuel ran
out before the loop returned. -/

inductive PyPath where
  | abs (comps : List String)
  | rel (comps : List String)
deriving DecidableEq

def pyDirname : PyPath → PyPath
  | .abs comps => .abs comps.dropLast
  | .rel comps => .rel comps.dropLast

def getLocalPyreProject (hasConfig : PyPath → Bool) : Nat → PyPath → Option (Option PyPath)
  | 0, _ => none
  | fuel + 1, p =>
    if p = PyPath.abs [] then some none
    else if hasConfig p then some (some p)
    else getLocalPyreProject hasConfig fuel (pyDirname p)

/-- Modelled from the claim's words: the nearest ancestor of an absolute
path (including the path itself, and including the root `"/"`) that
contains a pyre configuration file. -/
def claimNearestProject (hasConfig : PyPath → Bool) : List String → Option PyPath
  | [] => if hasConfig (PyPath.abs []) then some (PyPath.abs []) else none
  | c :: rest =>
    if hasConfig (PyPath.abs (c :: rest)) then some (PyPath.abs (c :: rest))
    else claimNearestProject hasConfig (c :: rest).dropLast
  termination_by comps => comps.length
  decreasing_by
    simp only [List.length_dropLast, List.length_cons]
    omega

/-- The ancestor search the code actually performs: as above, but the
root `"/"` itself is never probed. -/
def nearestProjectBelowRoot (hasConfig : PyPath → Bool) : List String → Option PyPath
  | [] => none
  | c :: rest =>
    if hasConfig (PyPath.abs (c :: rest)) then some (PyPath.abs (c :: rest))
    else nearestProjectBelowRoot hasConfig (c :: rest).dropLast
  termination_by comps => comps.length
  decreasing_by
    simp only [List.length_dropLast, List.length_cons]
    omega

/-! ## Directory synchronizer: `poor_mans_rsync`

A directory is a finite map from entry names to entries, kept as an
association list (the file system's `os.listdir` order is modelled by
the list order); an entry is a regular file (content plus modification
time, `shutil.copy2` preserves the latter) or a subdirectory. -/

inductive FsEntry where
  | file (content : String) (mtime : Nat)
  | dir (children : List (String × FsEntry))

abbrev Dir := List (String × FsEntry)

def dirNames (d : Dir) : List String := d.map (·.1)

def dirLookup (d : Dir) (n : String) : Option FsEntry :=
  (d.find? (fun e => e.1 == n)).map (·.2)

def isfile (d : Dir) (n : String) : Bool :=
  match dirLookup d n with
  | some (.file _ _) => true
  | _ => false

def isdir (d : Dir) (n : String) : Bool :=
  match dirLookup d n with
  | some (.dir _) => true
  | _ => false

/-- Remove the entry named `n` (`os.remove` / `shutil.rmtree`). -/
def dirErase (d : Dir) (n : String) : Dir :=
  d.filter (fun e => e.1 != n)

/-- Write entry `n` (overwriting in place when present, creating it
otherwise). -/
def dirSet (d : Dir) (n : String) (e : FsEntry) : Dir :=
  if n ∈ dirNames d then d.map (fun p => if p.1 = n then (n, e) else p)
  else d ++ [(n, e)]

/-- The write operations `poor_mans_rsync` performs, recorded so that
"this file was never touched" is expressible: `copyFile n` is the
`shutil.copy2` of a mismatched or missing top-level file, `copyTree n`
is the `shutil.rmtree`-then-`shutil.copytree` wholesale replacement of a
top-level subdirectory (which deletes and rewrites every file inside
it). -/
inductive Ev where
  | copyFile (n : String)
  | copyTree (n : String)
deriving DecidableEq

/-- `source_files` membership: `entry not in ignored_files and os.path.isfile(...)`. -/
def inSfiles (src : Dir) (ign : List String) (n : String) : Bool :=
  !ign.contains n && isfile src n

/-- `source_directories` membership: `os.path.isdir(...) and entry not in [".pyre"]`. -/
def inSdirs (src : Dir) (n : String) : Bool :=
  isdir src n && n != ".pyre"

/-- "Copy all directories over blindly": for each source directory,
`rmtree` the destination entry when it is a directory, then `copytree`;
`copytree` raises (`none`) when the destination entry still exists,
i.e. when it is a regular file. -/
def rsyncStep1 (src : Dir) : List String → Dir → Option (Dir × List Ev)
  | [], dst => some (dst, [])
  | d :: rest, dst =>
    if isfile dst d then none
    else
      match dirLookup src d with
      | some e =>
          (rsyncStep1 src rest (dirSet dst d e)).map
            (fun p => (p.1, Ev.copyTree d :: p.2))
      | none => none

/-- "Delete any missing directories." -/
def rsyncStep2 (sdirs : List String) : List String → Dir → Dir
  | [], dst => dst
  | d :: rest, dst =>
      rsyncStep2 sdirs rest (if sdirs.contains d then dst else dirErase dst d)

/-- Delete destination files missing from the source. -/
def rsyncStep3 (sfiles : List String) : List String → Dir → Dir
  | [], dst => dst
  | f :: rest, dst =>
      rsyncStep3 sfiles rest (if sfiles.contains f then dst else dirErase dst f)

/-- `filecmp.cmpfiles(..., shallow=False)` on name `f`: both entries are
regular files with byte-identical content. -/
def filesMatch (src dst : Dir) (f : String) : Bool :=
  match dirLookup src f, dirLookup dst f with
  | some (.file c _), some (.file c' _) => c == c'
  | _, _ => false

/-- The `cmpfiles` partition plus the copy loops over `mismatch` and
`error`: matched files are only logged; every other common-list file is
copied with `shutil.copy2` (which overwrites content and carries the
source's modification time).  `copy2` raises (`none`) when the
destination entry is a directory. -/
def rsyncStep4 (src : Dir) : List String → Dir → Option (Dir × List Ev)
  | [], dst => some (dst, [])
  | f :: rest, dst =>
    if filesMatch src dst f then rsyncStep4 src rest dst
    else if isdir dst f then none
    else
      match dirLookup src f with
      | some (.file c m) =>
          (rsyncStep4 src rest (dirSet dst f (.file c m))).map
            (fun p => (p.1, Ev.copyFile f :: p.2))
      | _ => none

/-- `poor_mans_rsync(source_directory, destination_directory, ignored_files)`:
the four `os.listdir` partitions are computed up front from the
unmodified directories, then the four mutation phases run in order. -/
def poor_mans_rsync (src dst : Dir) (ign : List String) : Option (Dir × List Ev) :=
  let sfiles := (dirNames src).filter (fun n => inSfiles src ign n)
  let dfiles := (dirNames dst).filter (fun n => !ign.contains n && isfile dst n)
  let sdirs := (dirNames src).filter (fun n => inSdirs src n)
  let ddirs := (dirNames dst).filter (fun n => isdir dst n && n != ".pyre")
  match rsyncStep1 src sdirs dst with
  | none => none
  | some (d1, ev1) =>
    let d2 := rsyncStep2 sdirs ddirs d1
    let d3 := rsyncStep3 sfiles dfiles d2
    match rsyncStep4 src sfiles d3 with
    | none => none
    | some (d4, ev4) => some (d4, ev1 ++ ev4)

mutual

/-- The file paths (as component lists) inside an entry: a single file
is the empty path, a directory contributes each child's paths prefixed
with the child's name.  Used to say which files a recorded `copyTree`
write rewrites. -/
def entryFilePaths : FsEntry → List (List String)
  | .file _ _ => [[]]
  | .dir ch => childFilePaths ch

def childFilePaths : List (String × FsEntry) → List (List String)
  | [] => []
  | (n, e) :: rest => (entryFilePaths e).map (n :: ·) ++ childFilePaths rest

end

def rewrittenFiles (src : Dir) (ev : List Ev) : List (List String) :=
  ev.flatMap
    (fun e =>
      match e with
      | .copyFile n => [[n]]
      | .copyTree n =>
          match dirLookup src n with
          | some t => (entryFilePaths t).map (n :: ·)
          | none => [])

/-- No `copyFile` write occurs in the event list. -/
def noFileCopies (ev : List Ev) : Bool :=
  ev.all (fun e => match e with | .copyFile _ => false | .copyTree _ => true)

/-- The per-name result of `poor_mans_rsync` claimed by the
specification (with the reserved `".pyre"` name carved out): source
directories other than `".pyre"` are copied wholesale; non-ignored
source files are copied unless already byte-identical (a matching file
keeps the destination entry, hence its timestamp) — this covers the
collision where the destination entry of the same name is a directory:
the directory is deleted in the missing-directories phase and the
source file then copied in; destination directories absent from the
source (and not `".pyre"`) are deleted; a non-ignored destination file
absent from the source is deleted; every other entry is left
untouched. -/
def rsyncSpec (src dst : Dir) (ign : List String) (n : String) : Option FsEntry :=
  if inSdirs src n then dirLookup src n
  else if inSfiles src ign n then
    (if filesMatch src dst n then dirLookup dst n else dirLookup src n)
  else if isdir dst n && n != ".pyre" then none
  else if !ign.contains n && isfile dst n then none
  else dirLookup dst n

/-! ## Placeholder substitution: `Repository._resolve_typeshed_location`

`_resolve_typeshed_location` rewrites the configuration file in place,
line by line, printing `line.replace("PYRE_TEST_TYPESHED_LOCATION",
self._test_typeshed_location)`.  Python's `str.replace` substitutes
every occurrence, scanning left to right without overlap; it is modelled
on `List Char` (`replaceAll`), together with the matching left-to-right
non-overlapping occurrence count (`countOcc`, the semantics of
`str.count`).  A file is its list of lines; neither the placeholder nor
a filesystem path contains a newline, so occurrences never span lines
and the file-level count is the sum of the per-line counts. -/

def pyreMarker : List Char := "PYRE_TEST_TYPESHED_LOCATION".toList

def countOcc (q : List Char) (s : List Char) : Nat :=
  if h : (!q.isEmpty && q.isPrefixOf s) = true then
    1 + countOcc q (s.drop q.length)
  else
    match s with
    | [] => 0
    | _ :: t => countOcc q t
  termination_by s.length
  decreasing_by
  · rw [Bool.and_eq_true] at h
    have hq : q ≠ [] := by
      intro hnil
      simp [hnil] at h
    have hle : q.length ≤ s.length :=
      (List.isPrefixOf_iff_prefix.mp h.2).length_le
    have hpos : 0 < q.length := List.length_pos.mpr hq
    simp only [List.length_drop]
    omega
  · simp only [List.length_cons]
    omega

def replaceAll (q r : List Char) (s : List Char) : List Char :=
  if h : (!q.isEmpty && q.isPrefixOf s) = true then
    r ++ replaceAll q r (s.drop q.length)
  else
    match s with
    | [] => []
    | c :: t => c :: replaceAll q r t
  termination_by s.length
  decreasing_by
  · rw [Bool.and_eq_true] at h
    have hq : q ≠ [] := by
      intro hnil
      simp [hnil] at h
    have hle : q.length ≤ s.length :=
      (List.isPrefixOf_iff_prefix.mp h.2).length_le
    have hpos : 0 < q.length := List.length_pos.mpr hq
    simp only [List.length_drop]
    omega
  · simp only [List.length_cons]
    omega

/-- Split off the occurrence-free prefix before the first occurrence of
`q` (the left-to-right scan both `countOcc` and `replaceAll` perform):
`some (u, v)` means `s = u ++ q ++ v` with the scan consuming `q` right
after `u`; `none` means the scan never matched. -/
def splitFirst (q : List Char) (s : List Char) : Option (List Char × List Char) :=
  if h : (!q.isEmpty && q.isPrefixOf s) = true then
    some ([], s.drop q.length)
  else
    match s with
    | [] => none
    | c :: t => (splitFirst q t).map (fun p => (c :: p.1, p.2))
  termination_by s.length
  decreasing_by
  · simp only [List.length_cons]
    omega

def resolveTypeshedLocation (loc : List Char) (lines : List (List Char)) :
    List (List Char) :=
  lines.map (replaceAll pyreMarker loc)

def fileCount (q : List Char) (lines : List (List Char)) : Nat :=
  (lines.map (countOcc q)).sum

/-- `r` has no border: no nonempty proper prefix of `r` is also a suffix
of `r`.  (Generic temporary-directory paths are border-free; a border is
what would let an occurrence of `r` straddle the boundary of a
substituted occurrence.) -/
def borderFree (r : List Char) : Bool :=
  (List.range r.length).all (fun k => k == 0 || r.take k != r.drop (r.length - k))

/-- Line-by-line preservation: the rewritten file has the same number of
lines, and every line in which the placeholder does not occur is
byte-identical to the original line at the same position. -/
def linesPreserved (lines lines' : List (List Char)) : Bool :=
  lines.length == lines'.length &&
    (lines.zip lines').all
      (fun p => (countOcc pyreMarker p.1 != 0) || p.1 == p.2)

/-! ## Concrete sample data used to exercise the models -/

/-- A driver schedule whose first attempt raises inside the consistency
test and whose second attempt returns exit code 5. -/
def sampleAttempts : Nat → AttemptBehavior := fun j =>
  if j = 0 then ⟨PyOutcome.raises, PyOutcome.returns 0⟩
  else ⟨PyOutcome.returns 5, PyOutcome.raises⟩

/-- A driver schedule in which every consistency attempt raises. -/
def alwaysRaises : Nat → AttemptBehavior := fun _ =>
  ⟨PyOutcome.raises, PyOutcome.raises⟩

/-- A filesystem in which only the root directory `/` holds a pyre
configuration file. -/
def rootOnlyConfig : PyPath → Bool := fun p =>
  match p with
  | .abs [] => true
  | _ => false

/-! # Theorems -/

/-! ## Helper lemmas -/

theorem repoRunAux_eq (l : List String) : ∀ app, repoRunAux app l = app ++ l := by
  induction l with
  | nil => intro app; simp [repoRunAux]
  | cons c rest ih => intro app; simp [repoRunAux, ih]

theorem driverLoop_spec (orig : String) (attempts : Nat → AttemptBehavior) (ec : Nat)
    (hec : ec ≠ 0) :
    ∀ r i k, (∀ j, j < k → retriedAttempt (attempts (i + j))) →
      (attempts (i + k)).integration = PyOutcome.returns ec →
      driverLoop orig attempts i r =
        if k < r then (ec, i + k + 1, List.replicate (k + 1) orig)
        else (1, i + r, List.replicate r orig) := by
  intro r
  induction r with
  | zero =>
    intro i k _ _
    simp [driverLoop]
  | succ r ih =>
    intro i k h1 h2
    match k with
    | 0 =>
      simp only [Nat.add_zero] at h2
      simp [driverLoop, h2, hec]
    | k' + 1 =>
      have h0 : retriedAttempt (attempts i) := by
        have := h1 0 (Nat.succ_pos _)
        simpa using this
      have hshift : ∀ j, j < k' → retriedAttempt (attempts (i + 1 + j)) := by
        intro j hj
        have := h1 (j + 1) (by omega)
        rwa [show i + (j + 1) = i + 1 + j by omega] at this
      have h2' : (attempts (i + 1 + k')).integration = PyOutcome.returns ec := by
        rwa [show i + (k' + 1) = i + 1 + k' by omega] at h2
      have hrec := ih (i + 1) k' hshift h2'
      rcases h0 with hr | ⟨hz, hs⟩
      · simp only [driverLoop, hr, hrec]
        by_cases hlt : k' < r
        · simp [if_pos hlt, if_pos (show k' + 1 < r + 1 by omega), List.replicate_succ]
          omega
        · simp [if_neg hlt, if_neg (show ¬ k' + 1 < r + 1 by omega), List.replicate_succ]
          omega
      · simp only [driverLoop, hz, hs, ne_eq, not_true_eq_false, reduceIte, hrec]
        by_cases hlt : k' < r
        · simp [if_pos hlt, if_pos (show k' + 1 < r + 1 by omega), List.replicate_succ]
          omega
        · simp [if_neg hlt, if_neg (show ¬ k' + 1 < r + 1 by omega), List.replicate_succ]
          omega

theorem getLocalPyreProject_abs_aux (cfg : PyPath → Bool) :
    ∀ n (comps : List String), comps.length = n →
      getLocalPyreProject cfg (comps.length + 1) (PyPath.abs comps) =
        some (nearestProjectBelowRoot cfg comps) := by
  intro n
  induction n using Nat.strong_induction_on with
  | _ n ih =>
    intro comps hn
    match comps with
    | [] => simp [getLocalPyreProject, nearestProjectBelowRoot]
    | c :: rest =>
      rw [getLocalPyreProject]
      have hne : PyPath.abs (c :: rest) ≠ PyPath.abs [] := by simp
      rw [if_neg hne]
      by_cases hc : cfg (PyPath.abs (c :: rest)) = true
      · rw [if_pos hc, nearestProjectBelowRoot, if_pos hc]
      · rw [if_neg hc, nearestProjectBelowRoot, if_neg hc]
        have hlen : ((c :: rest).dropLast).length = rest.length := by
          simp [List.length_dropLast]
        have hrest : rest.length < n := by
          rw [← hn]; simp
        have := ih rest.length hrest (c :: rest).dropLast hlen
        rw [hlen] at this
        simpa [pyDirname, hlen] using this

theorem getLocalPyreProject_abs (cfg : PyPath → Bool) (comps : List String) :
    getLocalPyreProject cfg (comps.length + 1) (PyPath.abs comps) =
      some (nearestProjectBelowRoot cfg comps) :=
  getLocalPyreProject_abs_aux cfg comps.length comps rfl

theorem getLocalPyreProject_rel_diverges (cfg : PyPath → Bool)
    (h : ∀ l, cfg (PyPath.rel l) = false) :
    ∀ fuel l, getLocalPyreProject cfg fuel (PyPath.rel l) = none := by
  intro fuel
  induction fuel with
  | zero => intro l; rfl
  | succ f ih =>
    intro l
    rw [getLocalPyreProject]
    have hne : PyPath.rel l ≠ PyPath.abs [] := by simp
    rw [if_neg hne, h l, if_neg (by simp)]
    exact ih l.dropLast

/-! ## Claim theorems: service client, commit order, runner, driver, linter -/

/-- C5: over any finite set of commit directories, the commits applied by
construction plus successive `__next__` calls are exactly the full commit
list in ascending lexicographic order (sorted, a permutation of the
input, hence each name applied exactly once, none skipped or repeated),
and the `__next__` call after the last commit fails with the exhaustion
condition (`StopIteration`, modelled as `none`) instead of repeating. -/
theorem C5_commit_order (commits : List String) (st : RepoState)
    (h : repoInit commits = some st) :
    (repoRunAll st).applied = List.insertionSort (· ≤ ·) commits ∧
    (repoRunAll st).applied.Sorted (· ≤ ·) ∧
    (repoRunAll st).applied.Perm commits ∧
    repoNext (repoRunAll st) = none := by
  unfold repoInit at h
  rcases hs : List.insertionSort (· ≤ ·) commits with - | ⟨c, rest⟩
  · rw [hs] at h; exact absurd h (by simp)
  · rw [hs] at h
    have hst : st = ⟨[c], rest⟩ := by
      injection h with h'; exact h'.symm
    subst hst
    have happ : (repoRunAll ⟨[c], rest⟩).applied = c :: rest := by
      simp [repoRunAll, repoRunAux_eq]
    refine ⟨by rw [happ], ?_, ?_, ?_⟩
    · rw [happ, ← hs]
      exact List.sorted_insertionSort _ commits
    · rw [happ, ← hs]
      exact List.perm_insertionSort _ commits
    · simp [repoRunAll, repoNext]

theorem C5_commit_order_witness :
    repoInit ["bb", "aa", "cc"] = some ⟨["aa"], ["bb", "cc"]⟩ ∧
    ((repoRunAll ⟨["aa"], ["bb", "cc"]⟩).applied = List.insertionSort (· ≤ ·) ["bb", "aa", "cc"] ∧
      (repoRunAll ⟨["aa"], ["bb", "cc"]⟩).applied.Sorted (· ≤ ·) ∧
      (repoRunAll ⟨["aa"], ["bb", "cc"]⟩).applied.Perm ["bb", "aa", "cc"] ∧
      repoNext (repoRunAll ⟨["aa"], ["bb", "cc"]⟩) = none) :=
  ⟨by simp [repoInit, List.insertionSort, List.orderedInsert] <;> decide,
    C5_commit_order ["bb", "aa", "cc"] ⟨["aa"], ["bb", "cc"]⟩
      (by simp [repoInit, List.insertionSort, List.orderedInsert] <;> decide)⟩

/-- C6: `run_pyre` invokes the client with
`--noninteractive --show-parse-errors --output=json` followed by the
command and arguments; it returns the captured stdout exactly when the
subprocess exits with code 0 or 1, and propagates the failure (the
non-tolerated exit code) exactly otherwise. -/
theorem C6_run_pyre_contract (proc : List String → ProcResult)
    (client command : String) (arguments : List String) :
    pyreArgv client command arguments =
      client :: "--noninteractive" :: "--show-parse-errors" :: "--output=json"
        :: command :: arguments ∧
    (run_pyre proc client command arguments =
        Except.ok (proc (pyreArgv client command arguments)).stdout ↔
      ((proc (pyreArgv client command arguments)).exitCode = 0 ∨
        (proc (pyreArgv client command arguments)).exitCode = 1)) ∧
    (run_pyre proc client command arguments =
        Except.error (proc (pyreArgv client command arguments)).exitCode ↔
      ¬ ((proc (pyreArgv client command arguments)).exitCode = 0 ∨
        (proc (pyreArgv client command arguments)).exitCode = 1)) := by
  refine ⟨rfl, ?_, ?_⟩
  · unfold run_pyre
    by_cases hc : (proc (pyreArgv client command arguments)).exitCode = 0 ∨
        (proc (pyreArgv client command arguments)).exitCode = 1
    · simp [hc]
    · simp [hc]
  · unfold run_pyre
    by_cases hc : (proc (pyreArgv client command arguments)).exitCode = 0 ∨
        (proc (pyreArgv client command arguments)).exitCode = 1
    · simp [hc]
    · simp [hc]

/-- C9: when the file-watch tool is unavailable, the consistency run
returns failure (exit code 1) with an empty action trace: no repository
is created, no directory is watched, and no command is sent to the
analysis service, regardless of what the body would have done. -/
theorem C9_missing_watchman (body : BodyRun) :
    runIntegrationTest false body = (Except.ok 1, []) := rfl

/-- C1 (code bug): when the body of the consistency run raises, the
exception propagates through `_watch_directory` — whose `yield` is not
wrapped in `try/finally` — so `watchman watch-del` is never issued: the
trace of the failing run contains `watch` but no `unwatch`, while the
normal-completion path does issue `unwatch`. -/
theorem C1_unwatch_skipped_when_body_raises :
    runIntegrationTest true (BodyRun.raised [RAction.pyre "start"]) =
      (Except.error (),
        [RAction.createRepo, RAction.watch, RAction.pyre "start", RAction.pyre "rage"]) ∧
    RAction.watch ∈ (runIntegrationTest true (BodyRun.raised [RAction.pyre "start"])).2 ∧
    RAction.unwatch ∉ (runIntegrationTest true (BodyRun.raised [RAction.pyre "start"])).2 ∧
    RAction.unwatch ∈ (runIntegrationTest true (BodyRun.normal false [RAction.pyre "start"])).2 := by
  refine ⟨rfl, by decide, by decide, by decide⟩

/-- C8: the driver retries with a fixed budget of 3 attempts.  If the
first `k` attempts are retried (an uncaught exception in the consistency
phase, or in the saved-state phase after a clean consistency phase) and
attempt `k` has the consistency test return a non-zero code `ec`, then:
for `k < 3` the process exits immediately with `ec` after exactly `k+1`
attempts, each started from the original working directory; otherwise
the budget is exhausted after 3 attempts and the process exits 1. -/
theorem C8_retry_budget (orig : String) (attempts : Nat → AttemptBehavior)
    (k ec : Nat) (hec : ec ≠ 0)
    (h1 : ∀ j, j < k → retriedAttempt (attempts j))
    (h2 : (attempts k).integration = PyOutcome.returns ec) :
    driver orig attempts =
      if k < 3 then (ec, k + 1, List.replicate (k + 1) orig)
      else (1, 3, List.replicate 3 orig) := by
  have := driverLoop_spec orig attempts ec hec 3 0 k (by simpa using h1) (by simpa using h2)
  simpa [driver] using this

theorem C8_retry_budget_witness :
    driver "wd" sampleAttempts = (5, 2, ["wd", "wd"]) := by
  have h := C8_retry_budget "wd" sampleAttempts 1 5 (by decide)
    (by decide) (by decide)
  simpa using h

/-- C10 counterexample: for the absolute path `/a` on a filesystem whose
only configuration file sits in the root directory `/`, the loop steps
to `/`, stops without probing it, and returns `None`; the claim's
nearest-ancestor specification (which admits the root as an ancestor)
returns `/` instead. -/
theorem C10_root_counterexample :
    getLocalPyreProject rootOnlyConfig 2 (PyPath.abs ["a"]) = some none ∧
    claimNearestProject rootOnlyConfig ["a"] = some (PyPath.abs []) ∧
    (some (Option.none : Option PyPath) ≠ some (some (PyPath.abs []))) := by
  refine ⟨rfl, ?_, by simp⟩
  rw [claimNearestProject]
  norm_num [rootOnlyConfig]
  rw [claimNearestProject]
  simp [rootOnlyConfig]

/-- C10 (amended): for every absolute path the loop terminates within
`length + 1` iterations and returns the nearest ancestor — the path
itself included, the root `/` excluded (the loop stops at `/` without
probing it) — that holds a `.pyre_configuration` or
`.pyre_configuration.local`, or `None` when no such non-root ancestor
exists; for a relative path with no configuration file on the way the
loop never returns, whatever fuel it is given, so absoluteness of the
input is a necessary precondition. -/
theorem C10_ancestor_search (cfg : PyPath → Bool) (comps : List String) (fuel : Nat)
    (h : ∀ l, cfg (PyPath.rel l) = false) :
    getLocalPyreProject cfg (comps.length + 1) (PyPath.abs comps) =
      some (nearestProjectBelowRoot cfg comps) ∧
    getLocalPyreProject cfg fuel (PyPath.rel comps) = none :=
  ⟨getLocalPyreProject_abs cfg comps,
    getLocalPyreProject_rel_diverges cfg h fuel comps⟩

theorem C10_ancestor_search_witness :
    getLocalPyreProject rootOnlyConfig 3 (PyPath.abs ["a", "b"]) =
      some (nearestProjectBelowRoot rootOnlyConfig ["a", "b"]) ∧
    getLocalPyreProject rootOnlyConfig 7 (PyPath.rel ["a", "b"]) = none :=
  C10_ancestor_search rootOnlyConfig ["a", "b"] 7 (fun _ => rfl)

/-! ## Association-list lemmas for the directory model -/

theorem dirLookup_nil (n : String) : dirLookup [] n = none := rfl

theorem dirLookup_cons (p : String × FsEntry) (d : Dir) (n : String) :
    dirLookup (p :: d) n = if p.1 = n then some p.2 else dirLookup d n := by
  by_cases h : p.1 = n
  · simp [dirLookup, List.find?_cons_of_pos, h]
  · simp [dirLookup, List.find?_cons_of_neg, h]

theorem mem_dirNames_cons (p : String × FsEntry) (d : Dir) (n : String) :
    n ∈ dirNames (p :: d) ↔ p.1 = n ∨ n ∈ dirNames d := by
  unfold dirNames
  simp only [List.map_cons, List.mem_cons]
  exact or_congr ⟨Eq.symm, Eq.symm⟩ Iff.rfl

theorem dirLookup_eq_none_iff (d : Dir) (n : String) :
    dirLookup d n = none ↔ n ∉ dirNames d := by
  induction d with
  | nil => simp [dirLookup, dirNames]
  | cons p rest ih =>
    rw [dirLookup_cons, mem_dirNames_cons]
    by_cases h : p.1 = n
    · simp [h]
    · simp [h, ih]

theorem mem_dirNames_of_lookup {d : Dir} {n : String} {e : FsEntry}
    (h : dirLookup d n = some e) : n ∈ dirNames d := by
  by_contra hmem
  rw [← dirLookup_eq_none_iff] at hmem
  rw [hmem] at h
  exact Option.noConfusion h

theorem isfile_isdir_exclusive (d : Dir) (n : String) :
    isfile d n = true → isdir d n = false := by
  unfold isfile isdir
  cases h : dirLookup d n with
  | none => simp
  | some e => cases e <;> simp

theorem mem_dirNames_of_isfile {d : Dir} {n : String} (h : isfile d n = true) :
    n ∈ dirNames d := by
  unfold isfile at h
  cases hl : dirLookup d n with
  | none => rw [hl] at h; simp at h
  | some e => exact mem_dirNames_of_lookup hl

theorem mem_dirNames_of_isdir {d : Dir} {n : String} (h : isdir d n = true) :
    n ∈ dirNames d := by
  unfold isdir at h
  cases hl : dirLookup d n with
  | none => rw [hl] at h; simp at h
  | some e => exact mem_dirNames_of_lookup hl

theorem dirNames_map_replace (d : Dir) (n : String) (e : FsEntry) :
    dirNames (d.map (fun p => if p.1 = n then (n, e) else p)) = dirNames d := by
  unfold dirNames
  rw [List.map_map]
  apply List.map_congr_left
  intro p _
  by_cases h : p.1 = n
  · simp [h]
  · simp [h]

theorem dirNames_dirSet_of_mem (d : Dir) (n : String) (e : FsEntry)
    (h : n ∈ dirNames d) : dirNames (dirSet d n e) = dirNames d := by
  unfold dirSet
  rw [if_pos h]
  exact dirNames_map_replace d n e

theorem dirNames_dirSet_of_not_mem (d : Dir) (n : String) (e : FsEntry)
    (h : n ∉ dirNames d) : dirNames (dirSet d n e) = dirNames d ++ [n] := by
  unfold dirSet
  rw [if_neg h]
  simp [dirNames]

theorem dirLookup_map_replace_self (d : Dir) (n : String) (e : FsEntry) :
    dirLookup (d.map (fun p => if p.1 = n then (n, e) else p)) n =
      if n ∈ dirNames d then some e else none := by
  induction d with
  | nil => simp [dirLookup, dirNames]
  | cons p rest ih =>
    rw [List.map_cons]
    by_cases hp : p.1 = n
    · rw [if_pos hp, dirLookup_cons, if_pos rfl,
        if_pos ((mem_dirNames_cons p rest n).mpr (Or.inl hp))]
    · rw [if_neg hp, dirLookup_cons, if_neg hp, ih]
      by_cases hr : n ∈ dirNames rest
      · rw [if_pos hr, if_pos ((mem_dirNames_cons p rest n).mpr (Or.inr hr))]
      · rw [if_neg hr, if_neg (fun hm => by
          rcases (mem_dirNames_cons p rest n).mp hm with h | h
          · exact hp h
          · exact hr h)]

theorem dirLookup_map_replace_ne (d : Dir) (n m : String) (e : FsEntry)
    (h : m ≠ n) :
    dirLookup (d.map (fun p => if p.1 = n then (n, e) else p)) m = dirLookup d m := by
  induction d with
  | nil => rfl
  | cons p rest ih =>
    rw [List.map_cons]
    by_cases hp : p.1 = n
    · rw [if_pos hp, dirLookup_cons, dirLookup_cons,
        if_neg (fun hb => h hb.symm), if_neg (fun hb => h (hp ▸ hb).symm)]
      exact ih
    · rw [if_neg hp, dirLookup_cons, dirLookup_cons]
      by_cases hpm : p.1 = m
      · rw [if_pos hpm, if_pos hpm]
      · rw [if_neg hpm, if_neg hpm]
        exact ih

theorem dirLookup_append_right (d : Dir) (n : String) (e : FsEntry)
    (h : n ∉ dirNames d) : dirLookup (d ++ [(n, e)]) n = some e := by
  induction d with
  | nil => simp [dirLookup_cons]
  | cons p rest ih =>
    have hp : p.1 ≠ n := fun hb => h ((mem_dirNames_cons p rest n).mpr (Or.inl hb))
    have hr : n ∉ dirNames rest := fun hb => h ((mem_dirNames_cons p rest n).mpr (Or.inr hb))
    rw [List.cons_append, dirLookup_cons, if_neg hp]
    exact ih hr

theorem dirLookup_append_ne (d : Dir) (n m : String) (e : FsEntry)
    (h : m ≠ n) : dirLookup (d ++ [(n, e)]) m = dirLookup d m := by
  induction d with
  | nil =>
    rw [List.nil_append, dirLookup_cons, if_neg (fun hb => h hb.symm)]
  | cons p rest ih =>
    rw [List.cons_append, dirLookup_cons, dirLookup_cons]
    by_cases hpm : p.1 = m
    · rw [if_pos hpm, if_pos hpm]
    · rw [if_neg hpm, if_neg hpm]
      exact ih

theorem dirLookup_dirSet_self (d : Dir) (n : String) (e : FsEntry) :
    dirLookup (dirSet d n e) n = some e := by
  unfold dirSet
  by_cases h : n ∈ dirNames d
  · rw [if_pos h, dirLookup_map_replace_self, if_pos h]
  · rw [if_neg h]
    exact dirLookup_append_right d n e h

theorem dirLookup_dirSet_ne (d : Dir) (n m : String) (e : FsEntry)
    (h : m ≠ n) : dirLookup (dirSet d n e) m = dirLookup d m := by
  unfold dirSet
  by_cases hmem : n ∈ dirNames d
  · rw [if_pos hmem]
    exact dirLookup_map_replace_ne d n m e h
  · rw [if_neg hmem]
    exact dirLookup_append_ne d n m e h

theorem dirLookup_dirErase_self (d : Dir) (n : String) :
    dirLookup (dirErase d n) n = none := by
  unfold dirErase
  induction d with
  | nil => rfl
  | cons p rest ih =>
    by_cases hp : p.1 = n
    · simp only [List.filter_cons]
      rw [if_neg (by simp [hp])]
      exact ih
    · simp only [List.filter_cons]
      rw [if_pos (by simp [hp]), dirLookup_cons, if_neg hp]
      exact ih

theorem dirLookup_dirErase_ne (d : Dir) (n m : String) (h : m ≠ n) :
    dirLookup (dirErase d n) m = dirLookup d m := by
  unfold dirErase
  induction d with
  | nil => rfl
  | cons p rest ih =>
    by_cases hp : p.1 = n
    · simp only [List.filter_cons]
      rw [if_neg (by simp [hp]), dirLookup_cons,
        if_neg (by rw [hp]; exact fun hb => h hb.symm)]
      exact ih
    · simp only [List.filter_cons]
      rw [if_pos (by simp [hp]), dirLookup_cons, dirLookup_cons]
      by_cases hpm : p.1 = m
      · rw [if_pos hpm, if_pos hpm]
      · rw [if_neg hpm, if_neg hpm]
        exact ih

theorem contains_true_iff (l : List String) (a : String) :
    l.contains a = true ↔ a ∈ l := List.elem_iff

theorem isfile_iff (d : Dir) (n : String) :
    isfile d n = true ↔ ∃ c m, dirLookup d n = some (FsEntry.file c m) := by
  unfold isfile
  cases h : dirLookup d n with
  | none => simp
  | some e => cases e <;> simp

theorem isdir_iff (d : Dir) (n : String) :
    isdir d n = true ↔ ∃ ch, dirLookup d n = some (FsEntry.dir ch) := by
  unfold isdir
  cases h : dirLookup d n with
  | none => simp
  | some e => cases e <;> simp

theorem dirNames_nodup_dirSet (d : Dir) (n : String) (e : FsEntry)
    (h : (dirNames d).Nodup) : (dirNames (dirSet d n e)).Nodup := by
  by_cases hmem : n ∈ dirNames d
  · rw [dirNames_dirSet_of_mem d n e hmem]; exact h
  · rw [dirNames_dirSet_of_not_mem d n e hmem]
    simp [List.nodup_append, h, hmem]

theorem dirNames_nodup_dirErase (d : Dir) (n : String)
    (h : (dirNames d).Nodup) : (dirNames (dirErase d n)).Nodup := by
  have hsub : List.Sublist (dirNames (dirErase d n)) (dirNames d) := by
    unfold dirNames dirErase
    exact List.Sublist.map (·.1) (List.filter_sublist d)
  exact h.sublist hsub

/-! ## Behaviour of the four `poor_mans_rsync` phases -/

theorem rsyncStep1_spec (src : Dir) :
    ∀ (ds : List String) (dst d1 : Dir) (ev1 : List Ev),
      rsyncStep1 src ds dst = some (d1, ev1) →
      ev1 = ds.map Ev.copyTree ∧
      (∀ n, n ∉ ds → dirLookup d1 n = dirLookup dst n) ∧
      (∀ n, n ∈ ds → dirLookup d1 n = dirLookup src n) ∧
      ((dirNames dst).Nodup → (dirNames d1).Nodup) ∧
      (∀ n, n ∈ ds → isfile dst n = false) := by
  intro ds
  induction ds with
  | nil =>
    intro dst d1 ev1 h
    rw [rsyncStep1] at h
    injection h with h
    injection h with h1 h2
    subst h1; subst h2
    exact ⟨rfl, fun n _ => rfl, fun n hn => absurd hn (List.not_mem_nil n), fun hh => hh,
      fun n hn => absurd hn (List.not_mem_nil n)⟩
  | cons d0 rest ih =>
    intro dst d1 ev1 h
    rw [rsyncStep1] at h
    by_cases hf : isfile dst d0 = true
    · rw [if_pos hf] at h; exact Option.noConfusion h
    · rw [if_neg hf] at h
      have hf0 : isfile dst d0 = false := by
        cases hbb : isfile dst d0 with
        | false => rfl
        | true => exact absurd hbb hf
      cases hsrc : dirLookup src d0 with
      | none => simp [hsrc] at h
      | some e =>
        simp only [hsrc] at h
        cases hrec : rsyncStep1 src rest (dirSet dst d0 e) with
        | none => simp [hrec] at h
        | some pr =>
          obtain ⟨d1', ev1'⟩ := pr
          simp only [hrec, Option.map_some, Option.some.injEq, Prod.mk.injEq] at h
          obtain ⟨rfl, rfl⟩ := h
          obtain ⟨hev, hout, hin, hnd, hfile⟩ := ih (dirSet dst d0 e) d1' ev1' hrec
          refine ⟨by rw [hev, List.map_cons], ?_, ?_, ?_, ?_⟩
          · intro n hn
            have hne : n ≠ d0 := fun hb => hn (hb ▸ List.mem_cons_self d0 rest)
            have hnr : n ∉ rest := fun hb => hn (List.mem_cons_of_mem d0 hb)
            rw [hout n hnr, dirLookup_dirSet_ne dst d0 n e hne]
          · intro n hn
            rcases List.mem_cons.mp hn with hn0 | hnr
            · by_cases hnr2 : n ∈ rest
              · exact hin n hnr2
              · subst hn0
                rw [hout n hnr2, dirLookup_dirSet_self, hsrc]
            · exact hin n hnr
          · intro hh
            exact hnd (dirNames_nodup_dirSet dst d0 e hh)
          · intro n hn
            rcases List.mem_cons.mp hn with hn0 | hnr
            · subst hn0
              exact hf0
            · by_cases hn0 : n = d0
              · subst hn0
                exact hf0
              · have := hfile n hnr
                unfold isfile at this ⊢
                rw [dirLookup_dirSet_ne dst d0 n e hn0] at this
                exact this

theorem rsyncStep2_spec (sdirs : List String) :
    ∀ (ds : List String) (dst : Dir) (n : String),
      dirLookup (rsyncStep2 sdirs ds dst) n =
        if n ∈ ds ∧ n ∉ sdirs then none else dirLookup dst n := by
  intro ds
  induction ds with
  | nil =>
    intro dst n
    rw [rsyncStep2, if_neg (by simp)]
  | cons d0 rest ih =>
    intro dst n
    rw [rsyncStep2, ih]
    by_cases hd0 : sdirs.contains d0 = true
    · rw [if_pos hd0]
      have hd0m : d0 ∈ sdirs := (contains_true_iff sdirs d0).mp hd0
      by_cases hc : n ∈ rest ∧ n ∉ sdirs
      · rw [if_pos hc, if_pos ⟨List.mem_cons_of_mem d0 hc.1, hc.2⟩]
      · rw [if_neg hc]
        by_cases hc2 : n ∈ d0 :: rest ∧ n ∉ sdirs
        · exfalso
          rcases List.mem_cons.mp hc2.1 with hn0 | hnr
          · exact hc2.2 (hn0 ▸ hd0m)
          · exact hc ⟨hnr, hc2.2⟩
        · rw [if_neg hc2]
    · rw [if_neg hd0]
      have hd0m : d0 ∉ sdirs := fun hb => hd0 ((contains_true_iff sdirs d0).mpr hb)
      by_cases hc : n ∈ rest ∧ n ∉ sdirs
      · rw [if_pos hc, if_pos ⟨List.mem_cons_of_mem d0 hc.1, hc.2⟩]
      · rw [if_neg hc]
        by_cases hn0 : n = d0
        · subst hn0
          rw [dirLookup_dirErase_self, if_pos ⟨List.mem_cons_self n rest, hd0m⟩]
        · rw [dirLookup_dirErase_ne dst d0 n hn0]
          by_cases hc2 : n ∈ d0 :: rest ∧ n ∉ sdirs
          · exfalso
            rcases List.mem_cons.mp hc2.1 with hb | hnr
            · exact hn0 hb
            · exact hc ⟨hnr, hc2.2⟩
          · rw [if_neg hc2]

theorem rsyncStep3_eq_rsyncStep2 (a : List String) :
    ∀ (ds : List String) (dst : Dir), rsyncStep3 a ds dst = rsyncStep2 a ds dst := by
  intro ds
  induction ds with
  | nil => intro dst; rfl
  | cons d0 rest ih =>
    intro dst
    rw [rsyncStep3, rsyncStep2, ih]

theorem rsyncStep2_names_nodup (sdirs : List String) :
    ∀ (ds : List String) (dst : Dir),
      (dirNames dst).Nodup → (dirNames (rsyncStep2 sdirs ds dst)).Nodup := by
  intro ds
  induction ds with
  | nil => intro dst h; exact h
  | cons d0 rest ih =>
    intro dst h
    rw [rsyncStep2]
    by_cases hd0 : sdirs.contains d0 = true
    · rw [if_pos hd0]; exact ih dst h
    · rw [if_neg hd0]
      exact ih _ (dirNames_nodup_dirErase dst d0 h)

theorem rsyncStep4_spec (src : Dir) :
    ∀ (fs : List String) (dst d4 : Dir) (ev4 : List Ev),
      rsyncStep4 src fs dst = some (d4, ev4) →
      fs.Nodup → (∀ f ∈ fs, isfile src f = true) →
      ev4 = (fs.filter (fun f => !filesMatch src dst f)).map Ev.copyFile ∧
      (∀ n, n ∉ fs → dirLookup d4 n = dirLookup dst n) ∧
      (∀ n, n ∈ fs → dirLookup d4 n =
        if filesMatch src dst n = true then dirLookup dst n else dirLookup src n) ∧
      ((dirNames dst).Nodup → (dirNames d4).Nodup) := by
  intro fs
  induction fs with
  | nil =>
    intro dst d4 ev4 h _ _
    rw [rsyncStep4] at h
    injection h with h
    injection h with h1 h2
    subst h1; subst h2
    exact ⟨rfl, fun n _ => rfl, fun n hn => absurd hn (List.not_mem_nil n), fun hh => hh⟩
  | cons f0 rest ih =>
    intro dst d4 ev4 h hnd hsf
    have hnd0 : f0 ∉ rest := (List.nodup_cons.mp hnd).1
    have hndr : rest.Nodup := (List.nodup_cons.mp hnd).2
    have hsfr : ∀ f ∈ rest, isfile src f = true :=
      fun f hf => hsf f (List.mem_cons_of_mem f0 hf)
    rw [rsyncStep4] at h
    by_cases hm : filesMatch src dst f0 = true
    · rw [if_pos hm] at h
      obtain ⟨hev, hout, hin, hnod⟩ := ih dst d4 ev4 h hndr hsfr
      refine ⟨?_, ?_, ?_, hnod⟩
      · rw [hev, List.filter_cons, if_neg (by simp [hm])]
      · intro n hn
        exact hout n (fun hb => hn (List.mem_cons_of_mem f0 hb))
      · intro n hn
        rcases List.mem_cons.mp hn with hn0 | hnr
        · subst hn0
          rw [hout n hnd0, if_pos hm]
        · exact hin n hnr
    · rw [if_neg hm] at h
      by_cases hdir : isdir dst f0 = true
      · rw [if_pos hdir] at h; exact Option.noConfusion h
      · rw [if_neg hdir] at h
        obtain ⟨c, m, hcf⟩ := (isfile_iff src f0).mp (hsf f0 (List.mem_cons_self f0 rest))
        simp only [hcf] at h
        cases hrec : rsyncStep4 src rest (dirSet dst f0 (FsEntry.file c m)) with
        | none => simp [hrec] at h
        | some pr =>
          obtain ⟨d4', ev4'⟩ := pr
          simp only [hrec, Option.map_some, Option.some.injEq, Prod.mk.injEq] at h
          obtain ⟨rfl, rfl⟩ := h
          obtain ⟨hev, hout, hin, hnod⟩ := ih _ d4' ev4' hrec hndr hsfr
          have hlook : ∀ n, n ∈ rest →
              dirLookup (dirSet dst f0 (FsEntry.file c m)) n = dirLookup dst n := by
            intro n hn
            exact dirLookup_dirSet_ne dst f0 n _ (fun hb => hnd0 (hb ▸ hn))
          have hmatch : ∀ n, n ∈ rest →
              filesMatch src (dirSet dst f0 (FsEntry.file c m)) n = filesMatch src dst n := by
            intro n hn
            unfold filesMatch
            rw [hlook n hn]
          have hfe : rest.filter (fun f => !filesMatch src (dirSet dst f0 (FsEntry.file c m)) f) =
              rest.filter (fun f => !filesMatch src dst f) :=
            List.filter_congr (fun f hf => by rw [hmatch f hf])
          refine ⟨?_, ?_, ?_, ?_⟩
          · rw [hev, hfe, List.filter_cons, if_pos (by simp [hm]), List.map_cons]
          · intro n hn
            have hne : n ≠ f0 := fun hb => hn (hb ▸ List.mem_cons_self f0 rest)
            have hnr : n ∉ rest := fun hb => hn (List.mem_cons_of_mem f0 hb)
            rw [hout n hnr, dirLookup_dirSet_ne dst f0 n _ hne]
          · intro n hn
            rcases List.mem_cons.mp hn with hn0 | hnr
            · subst hn0
              rw [hout n hnd0, dirLookup_dirSet_self, if_neg (by simp [hm]), hcf]
            · rw [hin n hnr, hmatch n hnr, hlook n hnr]
          · intro hh
            exact hnod (dirNames_nodup_dirSet dst f0 _ hh)

theorem isdir_isfile_exclusive (d : Dir) (n : String) :
    isdir d n = true → isfile d n = false := by
  unfold isfile isdir
  cases h : dirLookup d n with
  | none => simp
  | some e => cases e <;> simp

theorem filesMatch_iff (src dst : Dir) (n : String) :
    filesMatch src dst n = true ↔
      ∃ c m m2, dirLookup src n = some (FsEntry.file c m) ∧
        dirLookup dst n = some (FsEntry.file c m2) := by
  unfold filesMatch
  cases hs : dirLookup src n with
  | none => simp
  | some e =>
    cases e with
    | dir ch => simp
    | file c m =>
      cases hd : dirLookup dst n with
      | none => simp
      | some e2 =>
        cases e2 with
        | dir ch2 => simp
        | file c2 m2 =>
          simp only [beq_iff_eq]
          constructor
          · intro hcc
            exact ⟨c, m, m2, rfl, by rw [hcc]⟩
          · rintro ⟨c3, m3, m4, hl1, hl2⟩
            injection hl1 with hl1
            injection hl2 with hl2
            cases hl1
            cases hl2
            rfl

/-- The central characterization of `poor_mans_rsync`: when it succeeds,
every name of the resulting destination holds exactly the entry
described by `rsyncSpec`, a top-level file-copy write is recorded for a
name exactly when it is a non-ignored source file that did not match the
destination byte-for-byte, a wholesale subtree copy is recorded exactly
for the non-reserved source directories, and the result's names stay
duplicate-free.  No relationship between the two trees is assumed: a
source file whose name is a destination directory goes through the
delete-then-copy path (as the Python does), and the converse collision —
`copytree` onto an existing file — makes the run fail, which the success
hypothesis records. -/
theorem poor_mans_rsync_spec (src dst : Dir) (ign : List String) (d4 : Dir) (ev : List Ev)
    (hs : (dirNames src).Nodup) (hd : (dirNames dst).Nodup)
    (h : poor_mans_rsync src dst ign = some (d4, ev)) :
    (∀ n, dirLookup d4 n = rsyncSpec src dst ign n) ∧
    (∀ n, Ev.copyFile n ∈ ev ↔
      (inSfiles src ign n = true ∧ filesMatch src dst n = false)) ∧
    (∀ n, Ev.copyTree n ∈ ev ↔ inSdirs src n = true) ∧
    (dirNames d4).Nodup := by
  unfold poor_mans_rsync at h
  simp only at h
  cases h1 : rsyncStep1 src ((dirNames src).filter (fun n => inSdirs src n)) dst with
  | none => rw [h1] at h; exact Option.noConfusion h
  | some pr1 =>
    obtain ⟨d1, ev1⟩ := pr1
    rw [h1] at h
    simp only at h
    cases h4 : rsyncStep4 src ((dirNames src).filter (fun n => inSfiles src ign n))
        (rsyncStep3 ((dirNames src).filter (fun n => inSfiles src ign n))
          ((dirNames dst).filter (fun n => !ign.contains n && isfile dst n))
          (rsyncStep2 ((dirNames src).filter (fun n => inSdirs src n))
            ((dirNames dst).filter (fun n => isdir dst n && n != ".pyre")) d1)) with
    | none => rw [h4] at h; exact Option.noConfusion h
    | some pr4 =>
      obtain ⟨d4', ev4⟩ := pr4
      rw [h4] at h
      simp only [Option.some.injEq, Prod.mk.injEq] at h
      obtain ⟨rfl, rfl⟩ := h
      -- names of the four partitions
      have hmemsd : ∀ n, n ∈ (dirNames src).filter (fun n => inSdirs src n) ↔
          inSdirs src n = true := by
        intro n
        rw [List.mem_filter]
        constructor
        · exact fun hx => hx.2
        · intro hx
          exact ⟨mem_dirNames_of_isdir (Bool.and_eq_true .. ▸ hx).1, hx⟩
      have hmemsf : ∀ n, n ∈ (dirNames src).filter (fun n => inSfiles src ign n) ↔
          inSfiles src ign n = true := by
        intro n
        rw [List.mem_filter]
        constructor
        · exact fun hx => hx.2
        · intro hx
          exact ⟨mem_dirNames_of_isfile (Bool.and_eq_true .. ▸ hx).2, hx⟩
      have hmemdf : ∀ n, n ∈ (dirNames dst).filter (fun n => !ign.contains n && isfile dst n) ↔
          (!ign.contains n && isfile dst n) = true := by
        intro n
        rw [List.mem_filter]
        constructor
        · exact fun hx => hx.2
        · intro hx
          exact ⟨mem_dirNames_of_isfile (Bool.and_eq_true .. ▸ hx).2, hx⟩
      have hmemdd : ∀ n, n ∈ (dirNames dst).filter (fun n => isdir dst n && n != ".pyre") ↔
          (isdir dst n && n != ".pyre") = true := by
        intro n
        rw [List.mem_filter]
        constructor
        · exact fun hx => hx.2
        · intro hx
          exact ⟨mem_dirNames_of_isdir (Bool.and_eq_true .. ▸ hx).1, hx⟩
      obtain ⟨hev1, hout1, hin1, hnd1, hfile1⟩ := rsyncStep1_spec src _ dst d1 ev1 h1
      have hfsnodup : ((dirNames src).filter (fun n => inSfiles src ign n)).Nodup :=
        hs.filter _
      have hfsfile : ∀ f ∈ (dirNames src).filter (fun n => inSfiles src ign n),
          isfile src f = true := by
        intro f hf
        exact (Bool.and_eq_true .. ▸ (List.mem_filter.mp hf).2).2
      obtain ⟨hev4, hout4, hin4, hnd4⟩ := rsyncStep4_spec src _ _ d4' ev4 h4 hfsnodup hfsfile
      -- lookups through the first three phases
      have hd1l : ∀ n, dirLookup d1 n =
          if inSdirs src n = true then dirLookup src n else dirLookup dst n := by
        intro n
        by_cases hb : inSdirs src n = true
        · rw [if_pos hb]
          exact hin1 n ((hmemsd n).mpr hb)
        · rw [if_neg hb]
          exact hout1 n (fun hm => hb ((hmemsd n).mp hm))
      have hd3l : ∀ n, dirLookup (rsyncStep3 ((dirNames src).filter (fun n => inSfiles src ign n))
          ((dirNames dst).filter (fun n => !ign.contains n && isfile dst n))
          (rsyncStep2 ((dirNames src).filter (fun n => inSdirs src n))
            ((dirNames dst).filter (fun n => isdir dst n && n != ".pyre")) d1)) n =
          if ((!ign.contains n && isfile dst n) = true ∧ ¬ inSfiles src ign n = true) then none
          else if ((isdir dst n && n != ".pyre") = true ∧ ¬ inSdirs src n = true) then none
          else dirLookup d1 n := by
        intro n
        rw [rsyncStep3_eq_rsyncStep2, rsyncStep2_spec, rsyncStep2_spec]
        by_cases hx : (!ign.contains n && isfile dst n) = true ∧ ¬ inSfiles src ign n = true
        · rw [if_pos ⟨(hmemdf n).mpr hx.1, fun hm => hx.2 ((hmemsf n).mp hm)⟩, if_pos hx]
        · rw [if_neg (fun hm => hx ⟨(hmemdf n).mp hm.1, fun hb => hm.2 ((hmemsf n).mpr hb)⟩),
            if_neg hx]
          by_cases hy : (isdir dst n && n != ".pyre") = true ∧ ¬ inSdirs src n = true
          · rw [if_pos ⟨(hmemdd n).mpr hy.1, fun hm => hy.2 ((hmemsd n).mp hm)⟩, if_pos hy]
          · rw [if_neg (fun hm => hy ⟨(hmemdd n).mp hm.1, fun hb => hm.2 ((hmemsd n).mpr hb)⟩),
              if_neg hy]
      -- what a non-ignored source file name finds in the destination when
      -- phase four reaches it: nothing, when a same-named destination
      -- directory was deleted in phase two; the original entry otherwise
      have hd3f : ∀ n, inSfiles src ign n = true →
          dirLookup (rsyncStep3 ((dirNames src).filter (fun n => inSfiles src ign n))
            ((dirNames dst).filter (fun n => !ign.contains n && isfile dst n))
            (rsyncStep2 ((dirNames src).filter (fun n => inSdirs src n))
              ((dirNames dst).filter (fun n => isdir dst n && n != ".pyre")) d1)) n =
            (if (isdir dst n && n != ".pyre") = true then none else dirLookup dst n) := by
        intro n hC
        have hfsrc : isfile src n = true := (Bool.and_eq_true .. ▸ hC).2
        have hA2 : inSdirs src n = false := by
          unfold inSdirs
          rw [isfile_isdir_exclusive src n hfsrc]
          rfl
        rw [hd3l n, if_neg (fun hx => hx.2 hC)]
        by_cases hdd : (isdir dst n && n != ".pyre") = true
        · rw [if_pos ⟨hdd, by rw [hA2]; simp⟩, if_pos hdd]
        · rw [if_neg (fun hy => hdd hy.1), if_neg hdd, hd1l n, if_neg (by rw [hA2]; simp)]
      have hmatch3 : ∀ n, inSfiles src ign n = true →
          filesMatch src (rsyncStep3 ((dirNames src).filter (fun n => inSfiles src ign n))
            ((dirNames dst).filter (fun n => !ign.contains n && isfile dst n))
            (rsyncStep2 ((dirNames src).filter (fun n => inSdirs src n))
              ((dirNames dst).filter (fun n => isdir dst n && n != ".pyre")) d1)) n =
            filesMatch src dst n := by
        intro n hC
        have hfsrc : isfile src n = true := (Bool.and_eq_true .. ▸ hC).2
        obtain ⟨c, m, hsrcf⟩ := (isfile_iff src n).mp hfsrc
        by_cases hdd : (isdir dst n && n != ".pyre") = true
        · have hddst : isdir dst n = true := (Bool.and_eq_true .. ▸ hdd).1
          obtain ⟨ch, hch⟩ := (isdir_iff dst n).mp hddst
          unfold filesMatch
          rw [hd3f n hC, if_pos hdd, hsrcf, hch]
        · unfold filesMatch
          rw [hd3f n hC, if_neg hdd]
      refine ⟨?_, ?_, ?_, ?_⟩
      · -- lookup characterization
        intro n
        unfold rsyncSpec
        by_cases hA : inSdirs src n = true
        · -- a source directory, copied wholesale (a same-named destination
          -- file would have made phase one fail)
          rw [if_pos hA]
          have hdsrc : isdir src n = true := (Bool.and_eq_true .. ▸ hA).1
          have hfsrc : isfile src n = false := isdir_isfile_exclusive src n hdsrc
          have hC : inSfiles src ign n = false := by
            unfold inSfiles
            rw [hfsrc]
            simp
          have hfdst : isfile dst n = false := hfile1 n ((hmemsd n).mpr hA)
          rw [hout4 n (fun hm => by rw [(hmemsf n).mp hm] at hC; simp at hC),
            hd3l n, if_neg (fun hx => by rw [hfdst] at hx; simp at hx),
            if_neg (fun hy => hy.2 hA), hd1l n, if_pos hA]
        · rw [if_neg hA]
          by_cases hC : inSfiles src ign n = true
          · -- a non-ignored source file: compared against what survives the
            -- deletion phases, copied on mismatch (including over a deleted
            -- same-named destination directory)
            rw [if_pos hC]
            rw [hin4 n ((hmemsf n).mpr hC), hmatch3 n hC]
            by_cases hM : filesMatch src dst n = true
            · rw [if_pos hM, if_pos hM, hd3f n hC]
              obtain ⟨c2, m2, m3, hs2, hdstf⟩ := (filesMatch_iff src dst n).mp hM
              have hdf : isdir dst n = false := by
                unfold isdir
                rw [hdstf]
              rw [if_neg (by rw [hdf]; simp)]
            · rw [if_neg hM, if_neg hM]
          · rw [if_neg hC]
            by_cases hB : (isdir dst n && n != ".pyre") = true
            · -- a destination directory missing from the source: deleted
              rw [if_pos hB]
              have hddst : isdir dst n = true := (Bool.and_eq_true .. ▸ hB).1
              have hfdst : isfile dst n = false := isdir_isfile_exclusive dst n hddst
              rw [hout4 n (fun hm => hC ((hmemsf n).mp hm)), hd3l n,
                if_neg (fun hx => by rw [hfdst] at hx; simp at hx),
                if_pos ⟨hB, fun hb => hA hb⟩]
            · rw [if_neg hB]
              by_cases hD : (!ign.contains n && isfile dst n) = true
              · -- a non-ignored destination file missing from the source: deleted
                rw [if_pos hD]
                rw [hout4 n (fun hm => hC ((hmemsf n).mp hm)), hd3l n, if_pos ⟨hD, fun hb => hC hb⟩]
              · -- untouched
                rw [if_neg hD]
                rw [hout4 n (fun hm => hC ((hmemsf n).mp hm)), hd3l n,
                  if_neg (fun hx => hD hx.1), if_neg (fun hy => hB hy.1),
                  hd1l n, if_neg (fun hb => hA hb)]
      · -- copyFile events
        intro n
        rw [List.mem_append]
        constructor
        · intro hmem
          rcases hmem with hm1 | hm4
          · rw [hev1] at hm1
            obtain ⟨a, _, hbad⟩ := List.mem_map.mp hm1
            exact absurd hbad (by simp)
          · rw [hev4] at hm4
            obtain ⟨a, ha, haeq⟩ := List.mem_map.mp hm4
            have han : a = n := by
              injection haeq
            subst han
            have hmf := List.mem_filter.mp ha
            have hC : inSfiles src ign a = true := (hmemsf a).mp hmf.1
            refine ⟨hC, ?_⟩
            have := hmf.2
            rw [hmatch3 a hC] at this
            rw [Bool.not_eq_true'] at this
            exact this
        · rintro ⟨hC, hM⟩
          refine Or.inr ?_
          rw [hev4]
          refine List.mem_map.mpr ⟨n, ?_, rfl⟩
          refine List.mem_filter.mpr ⟨(hmemsf n).mpr hC, ?_⟩
          rw [hmatch3 n hC, hM]
          rfl
      · -- copyTree events
        intro n
        rw [List.mem_append]
        constructor
        · intro hmem
          rcases hmem with hm1 | hm4
          · rw [hev1] at hm1
            obtain ⟨a, ha, haeq⟩ := List.mem_map.mp hm1
            have han : a = n := by
              injection haeq
            subst han
            exact (hmemsd a).mp ha
          · rw [hev4] at hm4
            obtain ⟨a, _, hbad⟩ := List.mem_map.mp hm4
            exact absurd hbad (by simp)
        · intro hA
          refine Or.inl ?_
          rw [hev1]
          exact List.mem_map.mpr ⟨n, (hmemsd n).mpr hA, rfl⟩
      · -- names of the result are duplicate-free
        apply hnd4
        rw [rsyncStep3_eq_rsyncStep2]
        exact rsyncStep2_names_nodup _ _ _ (rsyncStep2_names_nodup _ _ _ (hnd1 hd))

theorem dirNames_cons (p : String × FsEntry) (d : Dir) :
    dirNames (p :: d) = p.1 :: dirNames d := rfl

theorem map_replace_id (d : Dir) (n : String) (e : FsEntry) (h : n ∉ dirNames d) :
    d.map (fun p => if p.1 = n then (n, e) else p) = d := by
  induction d with
  | nil => rfl
  | cons q qrest ihq =>
    have hq : q.1 ≠ n := fun hb => h ((mem_dirNames_cons q qrest n).mpr (Or.inl hb))
    have hqr : n ∉ dirNames qrest :=
      fun hb => h ((mem_dirNames_cons q qrest n).mpr (Or.inr hb))
    rw [List.map_cons, if_neg hq, ihq hqr]

theorem map_replace_of_lookup (d : Dir) (n : String) (e : FsEntry)
    (hnd : (dirNames d).Nodup) (h : dirLookup d n = some e) :
    d.map (fun p => if p.1 = n then (n, e) else p) = d := by
  induction d with
  | nil => rfl
  | cons p rest ih =>
    rw [dirNames_cons, List.nodup_cons] at hnd
    obtain ⟨hp1, hndr⟩ := hnd
    rw [dirLookup_cons] at h
    by_cases hp : p.1 = n
    · rw [if_pos hp] at h
      injection h with h
      have hpn : p = (n, e) := by
        obtain ⟨p1, p2⟩ := p
        simp only at hp h
        rw [hp, h]
      have hnr : n ∉ dirNames rest := hp ▸ hp1
      rw [List.map_cons, if_pos hp, map_replace_id rest n e hnr, ← hpn]
    · rw [if_neg hp] at h
      rw [List.map_cons, if_neg hp, ih hndr h]

theorem dirSet_eq_self (d : Dir) (n : String) (e : FsEntry)
    (hnd : (dirNames d).Nodup) (h : dirLookup d n = some e) : dirSet d n e = d := by
  unfold dirSet
  rw [if_pos (mem_dirNames_of_lookup h)]
  exact map_replace_of_lookup d n e hnd h

theorem rsyncStep1_noop (src : Dir) :
    ∀ (ds : List String) (dst : Dir),
      (∀ d ∈ ds, dirLookup dst d = dirLookup src d ∧ isdir src d = true) →
      (dirNames dst).Nodup →
      rsyncStep1 src ds dst = some (dst, ds.map Ev.copyTree) := by
  intro ds
  induction ds with
  | nil =>
    intro dst _ _
    rw [rsyncStep1, List.map_nil]
  | cons d0 rest ih =>
    intro dst hpre hnd
    obtain ⟨hl0, hd0⟩ := hpre d0 (List.mem_cons_self d0 rest)
    obtain ⟨ch, hch⟩ := (isdir_iff src d0).mp hd0
    have hldst : dirLookup dst d0 = some (FsEntry.dir ch) := by rw [hl0, hch]
    have hnf : isfile dst d0 = false := by
      unfold isfile
      rw [hldst]
    rw [rsyncStep1, if_neg (by rw [hnf]; simp)]
    simp only [hch]
    rw [dirSet_eq_self dst d0 (FsEntry.dir ch) hnd hldst,
      ih dst (fun d hd => hpre d (List.mem_cons_of_mem d0 hd)) hnd]
    rfl

theorem rsyncStep2_noop (sdirs : List String) :
    ∀ (ds : List String) (dst : Dir),
      (∀ n ∈ ds, n ∈ sdirs) → rsyncStep2 sdirs ds dst = dst := by
  intro ds
  induction ds with
  | nil => intro dst _; rfl
  | cons d0 rest ih =>
    intro dst hpre
    rw [rsyncStep2,
      if_pos ((contains_true_iff sdirs d0).mpr (hpre d0 (List.mem_cons_self d0 rest)))]
    exact ih dst (fun n hn => hpre n (List.mem_cons_of_mem d0 hn))

theorem rsyncStep3_noop (sfiles : List String) (ds : List String) (dst : Dir)
    (hpre : ∀ n ∈ ds, n ∈ sfiles) : rsyncStep3 sfiles ds dst = dst := by
  rw [rsyncStep3_eq_rsyncStep2]
  exact rsyncStep2_noop sfiles ds dst hpre

theorem rsyncStep4_noop (src : Dir) :
    ∀ (fs : List String) (dst : Dir),
      (∀ f ∈ fs, filesMatch src dst f = true) →
      rsyncStep4 src fs dst = some (dst, []) := by
  intro fs
  induction fs with
  | nil => intro dst _; rw [rsyncStep4]
  | cons f0 rest ih =>
    intro dst hpre
    rw [rsyncStep4, if_pos (hpre f0 (List.mem_cons_self f0 rest))]
    exact ih dst (fun f hf => hpre f (List.mem_cons_of_mem f0 hf))

/-! ## Claim theorems: the directory synchronizer -/

/-- C2 (amended): `ignored_files` shields only top-level *file* entries:
for every ignored name, the destination entry behaves as `rsyncSpec`
describes — a file (or absent) entry under an ignored name is never
copied, replaced or deleted, while directory entries are handled exactly
as if the name were not ignored (only the reserved `".pyre"` name
shields directories) — and no file-copy write is ever recorded for an
ignored name. -/
theorem C2_ignored_names (src dst : Dir) (ign : List String) (d4 : Dir) (ev : List Ev)
    (n : String)
    (hs : (dirNames src).Nodup) (hd : (dirNames dst).Nodup)
    (h : poor_mans_rsync src dst ign = some (d4, ev))
    (hi : ign.contains n = true) :
    dirLookup d4 n = rsyncSpec src dst ign n ∧ Ev.copyFile n ∉ ev := by
  obtain ⟨hl, hcf, _, _⟩ := poor_mans_rsync_spec src dst ign d4 ev hs hd h
  refine ⟨hl n, ?_⟩
  intro hmem
  obtain ⟨hC, _⟩ := (hcf n).mp hmem
  have := (Bool.and_eq_true .. ▸ hC).1
  rw [hi] at this
  simp at this

/-- C2 counterexample: with `ignored_names = ["x"]`, the ignored *source
subdirectory* `x` is still copied wholesale into the destination, and
with `ignored_names = ["y"]` the ignored destination-only subdirectory
`y` is still deleted — the ignored set only filters the file lists. -/
theorem C2_ignored_dir_counterexample :
    poor_mans_rsync [("x", FsEntry.dir [])] [] ["x"] =
      some ([("x", FsEntry.dir [])], [Ev.copyTree "x"]) ∧
    dirLookup [("x", FsEntry.dir [])] "x" = some (FsEntry.dir []) ∧
    poor_mans_rsync [] [("y", FsEntry.dir [])] ["y"] = some ([], []) ∧
    dirLookup ([] : Dir) "y" = none :=
  ⟨rfl, rfl, rfl, rfl⟩

theorem C2_ignored_names_witness :
    poor_mans_rsync [("f", FsEntry.file "new" 1)] [("f", FsEntry.file "old" 0)] ["f"] =
      some ([("f", FsEntry.file "old" 0)], []) ∧
    (dirLookup [("f", FsEntry.file "old" 0)] "f" =
        rsyncSpec [("f", FsEntry.file "new" 1)] [("f", FsEntry.file "old" 0)] ["f"] "f" ∧
      Ev.copyFile "f" ∉ ([] : List Ev)) :=
  ⟨rfl, C2_ignored_names [("f", FsEntry.file "new" 1)] [("f", FsEntry.file "old" 0)]
    ["f"] [("f", FsEntry.file "old" 0)] [] "f"
    (by decide) (by decide) rfl rfl⟩

/-- C4 (amended): with no ignored names, after `poor_mans_rsync` every
destination entry is as `rsyncSpec` prescribes: a top-level file
byte-identical on both sides keeps the original destination entry (so
its modification time is undisturbed) and is not written; a top-level
source file that differs or is missing ends up byte-identical to the
source (carrying the source's metadata, as `shutil.copy2` does); a
destination file absent from the source is deleted; and every source
subdirectory *except the reserved `".pyre"` name* is wholesale replaced
regardless of prior destination content.  A file-copy write is recorded
exactly for the non-matching source files. -/
theorem C4_sync_minimality (src dst : Dir) (d4 : Dir) (ev : List Ev) (n : String)
    (hs : (dirNames src).Nodup) (hd : (dirNames dst).Nodup)
    (h : poor_mans_rsync src dst [] = some (d4, ev)) :
    dirLookup d4 n = rsyncSpec src dst [] n ∧
    (Ev.copyFile n ∈ ev ↔
      (inSfiles src [] n = true ∧ filesMatch src dst n = false)) := by
  obtain ⟨hl, hcf, _, _⟩ := poor_mans_rsync_spec src dst [] d4 ev hs hd h
  exact ⟨hl n, hcf n⟩

/-- C4 counterexample: a source subdirectory named `".pyre"` is *not*
replaced into the destination — the reserved name is excluded from the
directory partition — so "every subdirectory present in the source is
fully and recursively replaced" fails at `.pyre`. -/
theorem C4_pyre_counterexample :
    poor_mans_rsync [(".pyre", FsEntry.dir [])] [] [] = some ([], []) ∧
    isdir [(".pyre", FsEntry.dir [])] ".pyre" = true ∧
    dirLookup ([] : Dir) ".pyre" = none :=
  ⟨rfl, rfl, rfl⟩

theorem C4_sync_minimality_witness :
    poor_mans_rsync
        [("same", FsEntry.file "s" 10), ("diff", FsEntry.file "new" 11),
          ("sub", FsEntry.dir [("k", FsEntry.file "v" 1)]), ("clash", FsEntry.file "c" 9)]
        [("same", FsEntry.file "s" 3), ("diff", FsEntry.file "old" 4),
          ("gone", FsEntry.file "g" 5), ("sub", FsEntry.dir []),
          ("clash", FsEntry.dir [("z", FsEntry.file "zz" 2)])] [] =
      some ([("same", FsEntry.file "s" 3), ("diff", FsEntry.file "new" 11),
          ("sub", FsEntry.dir [("k", FsEntry.file "v" 1)]), ("clash", FsEntry.file "c" 9)],
        [Ev.copyTree "sub", Ev.copyFile "diff", Ev.copyFile "clash"]) ∧
    (dirLookup [("same", FsEntry.file "s" 3), ("diff", FsEntry.file "new" 11),
          ("sub", FsEntry.dir [("k", FsEntry.file "v" 1)]), ("clash", FsEntry.file "c" 9)]
          "clash" =
        rsyncSpec
          [("same", FsEntry.file "s" 10), ("diff", FsEntry.file "new" 11),
            ("sub", FsEntry.dir [("k", FsEntry.file "v" 1)]), ("clash", FsEntry.file "c" 9)]
          [("same", FsEntry.file "s" 3), ("diff", FsEntry.file "old" 4),
            ("gone", FsEntry.file "g" 5), ("sub", FsEntry.dir []),
            ("clash", FsEntry.dir [("z", FsEntry.file "zz" 2)])] [] "clash" ∧
      (Ev.copyFile "clash" ∈ [Ev.copyTree "sub", Ev.copyFile "diff", Ev.copyFile "clash"] ↔
        (inSfiles
            [("same", FsEntry.file "s" 10), ("diff", FsEntry.file "new" 11),
              ("sub", FsEntry.dir [("k", FsEntry.file "v" 1)]),
              ("clash", FsEntry.file "c" 9)] [] "clash" = true ∧
          filesMatch
            [("same", FsEntry.file "s" 10), ("diff", FsEntry.file "new" 11),
              ("sub", FsEntry.dir [("k", FsEntry.file "v" 1)]),
              ("clash", FsEntry.file "c" 9)]
            [("same", FsEntry.file "s" 3), ("diff", FsEntry.file "old" 4),
              ("gone", FsEntry.file "g" 5), ("sub", FsEntry.dir []),
              ("clash", FsEntry.dir [("z", FsEntry.file "zz" 2)])] "clash" = false))) :=
  ⟨rfl, C4_sync_minimality _ _ _ _ "clash" (by decide) (by decide) rfl⟩

/-- C3 (amended): running the synchronizer a second time with the same
source leaves the destination tree exactly unchanged and records no
top-level file-copy write — but (see the counterexample) the wholesale
subtree copies still happen, so files inside subdirectories are
rewritten even when already identical. -/
theorem C3_idempotent (src dst d1 d2 : Dir) (ev1 ev2 : List Ev)
    (hs : (dirNames src).Nodup) (hd : (dirNames dst).Nodup)
    (h1 : poor_mans_rsync src dst [] = some (d1, ev1))
    (h2 : poor_mans_rsync src d1 [] = some (d2, ev2)) :
    d2 = d1 ∧ noFileCopies ev2 = true := by
  obtain ⟨hl, _, _, hnd1⟩ := poor_mans_rsync_spec src dst [] d1 ev1 hs hd h1
  have hpre1 : ∀ d ∈ (dirNames src).filter (fun n => inSdirs src n),
      dirLookup d1 d = dirLookup src d ∧ isdir src d = true := by
    intro d hdm
    have hA : inSdirs src d = true := (List.mem_filter.mp hdm).2
    constructor
    · rw [hl d]
      unfold rsyncSpec
      rw [if_pos hA]
    · exact (Bool.and_eq_true .. ▸ hA).1
  have hpre2 : ∀ n ∈ (dirNames d1).filter (fun n => isdir d1 n && n != ".pyre"),
      n ∈ (dirNames src).filter (fun n => inSdirs src n) := by
    intro n hnm
    have hcond := (List.mem_filter.mp hnm).2
    have hdd1 : isdir d1 n = true := (Bool.and_eq_true .. ▸ hcond).1
    have hpy : (n != ".pyre") = true := (Bool.and_eq_true .. ▸ hcond).2
    obtain ⟨ch, hch⟩ := (isdir_iff d1 n).mp hdd1
    rw [hl n] at hch
    unfold rsyncSpec at hch
    by_cases hA : inSdirs src n = true
    · exact List.mem_filter.mpr ⟨mem_dirNames_of_isdir (Bool.and_eq_true .. ▸ hA).1, hA⟩
    · rw [if_neg hA] at hch
      by_cases hC : inSfiles src [] n = true
      · rw [if_pos hC] at hch
        by_cases hM : filesMatch src dst n = true
        · rw [if_pos hM] at hch
          obtain ⟨c, m, m2, hsrcf, hdstf⟩ := (filesMatch_iff src dst n).mp hM
          rw [hdstf] at hch
          exact absurd hch (by simp)
        · rw [if_neg hM] at hch
          obtain ⟨c, m, hsrcf⟩ := (isfile_iff src n).mp (Bool.and_eq_true .. ▸ hC).2
          rw [hsrcf] at hch
          exact absurd hch (by simp)
      · rw [if_neg hC] at hch
        by_cases hB : (isdir dst n && n != ".pyre") = true
        · rw [if_pos hB] at hch
          exact absurd hch (by simp)
        · rw [if_neg hB] at hch
          by_cases hD : (!([] : List String).contains n && isfile dst n) = true
          · rw [if_pos hD] at hch
            exact absurd hch (by simp)
          · rw [if_neg hD] at hch
            have hdst : isdir dst n = true := (isdir_iff dst n).mpr ⟨ch, hch⟩
            exact absurd (by rw [Bool.and_eq_true]; exact ⟨hdst, hpy⟩) hB
  have hpre3 : ∀ n ∈ (dirNames d1).filter (fun n => !([] : List String).contains n && isfile d1 n),
      n ∈ (dirNames src).filter (fun n => inSfiles src [] n) := by
    intro n hnm
    have hcond := (List.mem_filter.mp hnm).2
    have hfd1 : isfile d1 n = true := (Bool.and_eq_true .. ▸ hcond).2
    obtain ⟨c, m, hch⟩ := (isfile_iff d1 n).mp hfd1
    rw [hl n] at hch
    unfold rsyncSpec at hch
    by_cases hA : inSdirs src n = true
    · rw [if_pos hA] at hch
      obtain ⟨ch2, hch2⟩ := (isdir_iff src n).mp (Bool.and_eq_true .. ▸ hA).1
      rw [hch2] at hch
      exact absurd hch (by simp)
    · rw [if_neg hA] at hch
      by_cases hC : inSfiles src [] n = true
      · exact List.mem_filter.mpr
          ⟨mem_dirNames_of_isfile (Bool.and_eq_true .. ▸ hC).2, hC⟩
      · rw [if_neg hC] at hch
        by_cases hB : (isdir dst n && n != ".pyre") = true
        · rw [if_pos hB] at hch
          exact absurd hch (by simp)
        · rw [if_neg hB] at hch
          by_cases hD : (!([] : List String).contains n && isfile dst n) = true
          · rw [if_pos hD] at hch
            exact absurd hch (by simp)
          · rw [if_neg hD] at hch
            have hfdst : isfile dst n = true := (isfile_iff dst n).mpr ⟨c, m, hch⟩
            exact absurd (by rw [Bool.and_eq_true]; exact ⟨rfl, hfdst⟩) hD
  have hpre4 : ∀ f ∈ (dirNames src).filter (fun n => inSfiles src [] n),
      filesMatch src d1 f = true := by
    intro f hfm
    have hC : inSfiles src [] f = true := (List.mem_filter.mp hfm).2
    have hf : isfile src f = true := (Bool.and_eq_true .. ▸ hC).2
    obtain ⟨c, m, hsrcf⟩ := (isfile_iff src f).mp hf
    have hA : inSdirs src f = false := by
      unfold inSdirs
      rw [isfile_isdir_exclusive src f hf]
      rfl
    have hld1 : dirLookup d1 f =
        if filesMatch src dst f = true then dirLookup dst f else dirLookup src f := by
      rw [hl f]
      unfold rsyncSpec
      rw [if_neg (by rw [hA]; simp), if_pos hC]
    by_cases hM : filesMatch src dst f = true
    · obtain ⟨c2, m2, m3, hsrcf2, hdstf⟩ := (filesMatch_iff src dst f).mp hM
      have hd1f : dirLookup d1 f = some (FsEntry.file c2 m3) := by
        rw [hld1, if_pos hM]
        exact hdstf
      exact (filesMatch_iff src d1 f).mpr ⟨c2, m2, m3, hsrcf2, hd1f⟩
    · have hd1f : dirLookup d1 f = some (FsEntry.file c m) := by
        rw [hld1, if_neg hM]
        exact hsrcf
      exact (filesMatch_iff src d1 f).mpr ⟨c, m, m, hsrcf, hd1f⟩
  unfold poor_mans_rsync at h2
  simp only at h2
  rw [rsyncStep1_noop src _ d1 hpre1 hnd1] at h2
  simp only at h2
  rw [rsyncStep2_noop _ _ d1 hpre2, rsyncStep3_noop _ _ d1 hpre3,
    rsyncStep4_noop src _ d1 hpre4] at h2
  simp only [Option.some.injEq, Prod.mk.injEq, List.append_nil] at h2
  obtain ⟨h2a, h2b⟩ := h2
  refine ⟨h2a.symm, ?_⟩
  rw [← h2b]
  rw [noFileCopies, List.all_eq_true]
  intro x hx
  obtain ⟨a, _, ha⟩ := List.mem_map.mp hx
  rw [← ha]

/-- C3 counterexample: on a source containing a subdirectory `d` with a
file `f`, a second run against an already-synchronized destination still
performs the wholesale `rmtree`/`copytree` of `d`, so the file `d/f` —
byte-identical to its source counterpart — is rewritten by the second
run. -/
theorem C3_subdir_rewrite_counterexample :
    poor_mans_rsync [("d", FsEntry.dir [("f", FsEntry.file "x" 0)])]
        [("d", FsEntry.dir [("f", FsEntry.file "x" 0)])] [] =
      some ([("d", FsEntry.dir [("f", FsEntry.file "x" 0)])], [Ev.copyTree "d"]) ∧
    ["d", "f"] ∈ rewrittenFiles [("d", FsEntry.dir [("f", FsEntry.file "x" 0)])]
      [Ev.copyTree "d"] := by
  constructor
  · rfl
  · simp [rewrittenFiles, entryFilePaths, childFilePaths, dirLookup_cons]

theorem C3_idempotent_witness :
    poor_mans_rsync [("a", FsEntry.file "x" 7)] [] [] =
      some ([("a", FsEntry.file "x" 7)], [Ev.copyFile "a"]) ∧
    poor_mans_rsync [("a", FsEntry.file "x" 7)] [("a", FsEntry.file "x" 7)] [] =
      some ([("a", FsEntry.file "x" 7)], []) ∧
    ([("a", FsEntry.file "x" 7)] : Dir) = [("a", FsEntry.file "x" 7)] ∧
    noFileCopies [] = true :=
  ⟨rfl, rfl,
    (C3_idempotent [("a", FsEntry.file "x" 7)] [] [("a", FsEntry.file "x" 7)]
      [("a", FsEntry.file "x" 7)] [Ev.copyFile "a"] []
      (by decide) (by decide) rfl rfl).1,
    (C3_idempotent [("a", FsEntry.file "x" 7)] [] [("a", FsEntry.file "x" 7)]
      [("a", FsEntry.file "x" 7)] [Ev.copyFile "a"] []
      (by decide) (by decide) rfl rfl).2⟩

/-! ## String-replacement lemmas for the placeholder substitution -/

theorem occCond_iff (q s : List Char) :
    (!q.isEmpty && q.isPrefixOf s) = true ↔ q ≠ [] ∧ q <+: s := by
  rw [Bool.and_eq_true, List.isPrefixOf_iff_prefix]
  simp [List.isEmpty_iff]

theorem countOcc_nil (q : List Char) : countOcc q [] = 0 := by
  rw [countOcc, dif_neg]
  intro hx
  obtain ⟨hq, hp⟩ := (occCond_iff q []).mp hx
  exact hq (List.prefix_nil.mp hp)

theorem countOcc_head_occ (q s : List Char) (hq : q ≠ []) (hp : q <+: s) :
    countOcc q s = 1 + countOcc q (s.drop q.length) := by
  rw [countOcc, dif_pos ((occCond_iff q s).mpr ⟨hq, hp⟩)]

theorem countOcc_cons (q : List Char) (c : Char) (t : List Char)
    (h : ¬ q <+: (c :: t)) : countOcc q (c :: t) = countOcc q t := by
  rw [countOcc, dif_neg]
  intro hx
  exact h ((occCond_iff q (c :: t)).mp hx).2

theorem replaceAll_nil (q r : List Char) : replaceAll q r [] = [] := by
  rw [replaceAll, dif_neg]
  intro hx
  obtain ⟨hq, hp⟩ := (occCond_iff q []).mp hx
  exact hq (List.prefix_nil.mp hp)

theorem replaceAll_head_occ (q r s : List Char) (hq : q ≠ []) (hp : q <+: s) :
    replaceAll q r s = r ++ replaceAll q r (s.drop q.length) := by
  rw [replaceAll, dif_pos ((occCond_iff q s).mpr ⟨hq, hp⟩)]

theorem replaceAll_cons (q r : List Char) (c : Char) (t : List Char)
    (h : ¬ q <+: (c :: t)) : replaceAll q r (c :: t) = c :: replaceAll q r t := by
  rw [replaceAll, dif_neg]
  intro hx
  exact h ((occCond_iff q (c :: t)).mp hx).2

theorem countOcc_eq_zero_aux (q : List Char) (hq : q ≠ []) :
    ∀ n (s : List Char), s.length = n → (countOcc q s = 0 ↔ ¬ q <:+: s) := by
  intro n
  induction n using Nat.strong_induction_on with
  | _ n ih =>
    intro s hn
    by_cases hp : q <+: s
    · rw [countOcc_head_occ q s hq hp]
      constructor
      · intro hx
        omega
      · intro hinf
        exact absurd hp.isInfix hinf
    · match s with
      | [] =>
        rw [countOcc_nil]
        simp only [true_iff]
        intro hinf
        exact hq (List.eq_nil_of_infix_nil hinf)
      | c :: t =>
        rw [countOcc_cons q c t hp, List.infix_cons_iff]
        have hlt : t.length < n := by
          rw [← hn]
          simp
        rw [ih t.length hlt t rfl]
        constructor
        · intro hz hor
          rcases hor with ho | ho
          · exact hp ho
          · exact hz ho
        · intro hno hin
          exact hno (Or.inr hin)

theorem countOcc_eq_zero_iff (q : List Char) (hq : q ≠ []) (s : List Char) :
    countOcc q s = 0 ↔ ¬ q <:+: s :=
  countOcc_eq_zero_aux q hq s.length s rfl

theorem replaceAll_of_no_occ (q r : List Char) (hq : q ≠ []) :
    ∀ n (s : List Char), s.length = n → ¬ q <:+: s → replaceAll q r s = s := by
  intro n
  induction n using Nat.strong_induction_on with
  | _ n ih =>
    intro s hn hno
    by_cases hp : q <+: s
    · exact absurd hp.isInfix hno
    · match s with
      | [] => exact replaceAll_nil q r
      | c :: t =>
        rw [replaceAll_cons q r c t hp]
        have hlt : t.length < n := by
          rw [← hn]
          simp
        rw [ih t.length hlt t rfl (fun hin => hno (List.infix_cons_iff.mpr (Or.inr hin)))]

theorem replaceAll_cons2 (q r : List Char) (c : Char) (t : List Char)
    (h : ¬ (q ≠ [] ∧ q <+: (c :: t))) :
    replaceAll q r (c :: t) = c :: replaceAll q r t := by
  rw [replaceAll, dif_neg]
  intro hx
  exact h ((occCond_iff q (c :: t)).mp hx)

theorem infix_append_elim (q : List Char) (hq : q ≠ []) :
    ∀ (r y : List Char), (∀ c ∈ r, c ∉ q) → q <:+: (r ++ y) → q <:+: y := by
  intro r
  induction r with
  | nil =>
    intro y _ h
    exact h
  | cons c r2 ih =>
    intro y hd h
    rw [List.cons_append, List.infix_cons_iff] at h
    rcases h with hpre | hinf
    · match q, hq with
      | q0 :: q2, _ =>
        obtain ⟨t, ht⟩ := hpre
        injection ht with ht1 _
        exact absurd (ht1 ▸ List.mem_cons_self q0 q2)
          (hd c (List.mem_cons_self c r2))
    · exact ih y (fun x hx => hd x (List.mem_cons_of_mem c hx)) hinf

theorem prefix_replaceAll_elim (q r : List Char) (hr : r ≠ []) :
    ∀ n (s : List Char), s.length = n → ∀ w, (∀ c ∈ w, c ∉ r) →
      w <+: replaceAll q r s → w <+: s := by
  intro n
  induction n using Nat.strong_induction_on with
  | _ n ih =>
    intro s hn w hw h
    by_cases hcond : q ≠ [] ∧ q <+: s
    · rw [replaceAll_head_occ q r s hcond.1 hcond.2] at h
      match w with
      | [] => exact List.nil_prefix
      | c :: w2 =>
        match r, hr with
        | r0 :: r2, _ =>
          rw [List.cons_append] at h
          obtain ⟨t, ht⟩ := h
          injection ht with ht1 _
          exact absurd (hw c (List.mem_cons_self c w2))
            (fun hnot => hnot (ht1 ▸ List.mem_cons_self r0 r2))
    · match s with
      | [] =>
        rw [replaceAll_nil] at h
        rw [List.prefix_nil.mp h]
      | c :: t =>
        rw [replaceAll_cons2 q r c t hcond] at h
        match w with
        | [] => exact List.nil_prefix
        | c2 :: w2 =>
          obtain ⟨t2, ht2⟩ := h
          injection ht2 with ht1 ht2
          have hlt : t.length < n := by
            rw [← hn]
            simp
          have hw2 : w2 <+: replaceAll q r t := ⟨t2, ht2⟩
          have hrec := ih t.length hlt t rfl w2
            (fun x hx => hw x (List.mem_cons_of_mem c2 hx)) hw2
          rw [ht1]
          exact List.cons_prefix_cons.mpr ⟨rfl, hrec⟩

theorem no_occ_in_replaceAll (q r : List Char) (hq : q ≠ []) (hr : r ≠ [])
    (hd : ∀ c ∈ r, c ∉ q) :
    ∀ n (s : List Char), s.length = n → ¬ q <:+: replaceAll q r s := by
  intro n
  induction n using Nat.strong_induction_on with
  | _ n ih =>
    intro s hn h
    by_cases hp : q <+: s
    · rw [replaceAll_head_occ q r s hq hp] at h
      have h2 := infix_append_elim q hq r (replaceAll q r (s.drop q.length)) hd h
      have hlt : (s.drop q.length).length < n := by
        rw [← hn, List.length_drop]
        have h1 : 0 < q.length := List.length_pos.mpr hq
        have h2 := hp.length_le
        omega
      exact ih _ hlt (s.drop q.length) rfl h2
    · match s with
      | [] =>
        rw [replaceAll_nil] at h
        exact hq (List.eq_nil_of_infix_nil h)
      | c :: t =>
        rw [replaceAll_cons q r c t hp] at h
        rw [List.infix_cons_iff] at h
        rcases h with hpre | hinf
        · match q, hq with
          | q0 :: q2, _ =>
            obtain ⟨t2, ht2⟩ := hpre
            injection ht2 with ht1 ht2
            have hq2 : q2 <+: replaceAll (q0 :: q2) r t := ⟨t2, ht2⟩
            have hw : ∀ x ∈ q2, x ∉ r := by
              intro x hx hxr
              exact hd x hxr (List.mem_cons_of_mem q0 hx)
            have := prefix_replaceAll_elim (q0 :: q2) r hr t.length t rfl q2 hw hq2
            apply hp
            rw [ht1]
            exact List.cons_prefix_cons.mpr ⟨rfl, this⟩
        · have hlt : t.length < n := by
            rw [← hn]
            simp
          exact ih t.length hlt t rfl hinf

theorem borderFree_spec {r : List Char} (hb : borderFree r = true) :
    ∀ k, 0 < k → k < r.length → r.take k ≠ r.drop (r.length - k) := by
  intro k hk hkr
  have := (List.all_eq_true.mp hb) k (List.mem_range.mpr hkr)
  rw [Bool.or_eq_true] at this
  rcases this with h0 | hne
  · exact absurd (beq_iff_eq.mp h0) (by omega)
  · exact bne_iff_ne.mp hne

theorem prefix_border_elim (r : List Char) (hr : r ≠ []) (hb : borderFree r = true)
    (u y : List Char) (hu : u ≠ []) (h : r <+: (u ++ (r ++ y))) : r <:+: u := by
  by_cases hlen : r.length ≤ u.length
  · have hru : r <+: u := by
      have h2 : r = (u ++ (r ++ y)).take r.length := List.prefix_iff_eq_take.mp h
      rw [List.take_append_of_le_length hlen] at h2
      rw [h2]
      exact List.take_prefix r.length u
    exact hru.isInfix
  · exfalso
    push_neg at hlen
    have hur : u <+: r :=
      List.prefix_of_prefix_length_le (List.prefix_append u (r ++ y)) h (by omega)
    obtain ⟨z, hz⟩ := hur
    have hzlen : z.length = r.length - u.length := by
      have := congrArg List.length hz
      rw [List.length_append] at this
      omega
    have hupos : 0 < u.length := List.length_pos.mpr hu
    have hzne : 0 < z.length := by
      rw [hzlen]
      omega
    have hzlt : z.length < r.length := by
      rw [hzlen]
      omega
    -- z is a suffix of r by construction, and a prefix of r via h
    have hzpre : z <+: r := by
      have hcancel : z <+: (r ++ y) := by
        have h2 : (u ++ z) <+: (u ++ (r ++ y)) := hz ▸ h
        exact (List.prefix_append_right_inj u).mp h2
      have h3 : z = (r ++ y).take z.length := List.prefix_iff_eq_take.mp hcancel
      rw [List.take_append_of_le_length (by omega)] at h3
      rw [h3]
      exact List.take_prefix z.length r
    have hzsuf : z = r.drop (r.length - z.length) := by
      have hdz : r.drop u.length = z := by
        rw [← hz, List.drop_left]
      rw [hzlen]
      have harith : r.length - (r.length - u.length) = u.length := by omega
      rw [harith, hdz]
    exact borderFree_spec hb z.length hzne hzlt
      (by rw [← List.prefix_iff_eq_take.mp hzpre, ← hzsuf])

theorem countOcc_fresh_append (r : List Char) (hr : r ≠ []) (hb : borderFree r = true) :
    ∀ (u y : List Char), ¬ r <:+: u →
      countOcc r (u ++ (r ++ y)) = 1 + countOcc r y := by
  intro u
  induction u with
  | nil =>
    intro y _
    rw [List.nil_append, countOcc_head_occ r _ hr (List.prefix_append r y),
      List.drop_left]
  | cons c u2 ih =>
    intro y hu
    have hp : ¬ r <+: ((c :: u2) ++ (r ++ y)) := by
      intro hx
      exact hu (prefix_border_elim r hr hb (c :: u2) y (by simp) hx)
    rw [List.cons_append] at hp ⊢
    rw [countOcc_cons r c _ hp]
    exact ih y (fun hx => hu (List.infix_cons hx))

theorem splitFirst_none_spec (q r : List Char) (hq : q ≠ []) :
    ∀ (s : List Char), splitFirst q s = none →
      countOcc q s = 0 ∧ replaceAll q r s = s := by
  intro s
  induction s with
  | nil =>
    intro _
    exact ⟨countOcc_nil q, replaceAll_nil q r⟩
  | cons c t ih =>
    intro h
    rw [splitFirst] at h
    by_cases hcond : (!q.isEmpty && q.isPrefixOf (c :: t)) = true
    · rw [dif_pos hcond] at h
      exact Option.noConfusion h
    · rw [dif_neg hcond] at h
      have hp : ¬ q <+: (c :: t) := fun hx => hcond ((occCond_iff q (c :: t)).mpr ⟨hq, hx⟩)
      have h2 : Option.map (fun p => (c :: p.1, p.2)) (splitFirst q t) = none := h
      have hrec : splitFirst q t = none := by
        cases hx : splitFirst q t with
        | none => rfl
        | some pr =>
          rw [hx] at h2
          exact Option.noConfusion h2
      obtain ⟨hc1, hc2⟩ := ih hrec
      exact ⟨by rw [countOcc_cons q c t hp, hc1],
        by rw [replaceAll_cons q r c t hp, hc2]⟩

theorem splitFirst_some_spec (q r : List Char) (hq : q ≠ []) :
    ∀ (s u v : List Char), splitFirst q s = some (u, v) →
      s = u ++ (q ++ v) ∧
      replaceAll q r s = u ++ (r ++ replaceAll q r v) ∧
      countOcc q s = 1 + countOcc q v := by
  intro s
  induction s with
  | nil =>
    intro u v h
    rw [splitFirst, dif_neg] at h
    · exact Option.noConfusion h
    · intro hx
      exact hq (List.prefix_nil.mp ((occCond_iff q []).mp hx).2)
  | cons c t ih =>
    intro u v h
    rw [splitFirst] at h
    by_cases hcond : (!q.isEmpty && q.isPrefixOf (c :: t)) = true
    · rw [dif_pos hcond] at h
      have hpre : q <+: (c :: t) := ((occCond_iff q (c :: t)).mp hcond).2
      injection h with h
      have h1 : ([] : List Char) = u := congrArg Prod.fst h
      have h2 : (c :: t).drop q.length = v := congrArg Prod.snd h
      subst h1
      subst h2
      refine ⟨?_, ?_, ?_⟩
      · obtain ⟨w, hw⟩ := hpre
        rw [List.nil_append, ← hw, List.drop_left]
      · rw [replaceAll_head_occ q r _ hq hpre, List.nil_append]
      · rw [countOcc_head_occ q _ hq hpre]
    · rw [dif_neg hcond] at h
      have hp : ¬ q <+: (c :: t) := fun hx => hcond ((occCond_iff q (c :: t)).mpr ⟨hq, hx⟩)
      have h2 : Option.map (fun p => (c :: p.1, p.2)) (splitFirst q t) = some (u, v) := h
      cases hx : splitFirst q t with
      | none =>
        rw [hx] at h2
        exact Option.noConfusion h2
      | some pr =>
        obtain ⟨u2, v2⟩ := pr
        rw [hx] at h2
        simp only [Option.map_some', Option.some.injEq, Prod.mk.injEq] at h2
        obtain ⟨hh1, hh2⟩ := h2
        subst hh2
        obtain ⟨hs, hrep, hcnt⟩ := ih u2 v2 hx
        refine ⟨?_, ?_, ?_⟩
        · rw [← hh1, List.cons_append, ← hs]
        · rw [← hh1, List.cons_append, replaceAll_cons q r c t hp, hrep]
        · rw [countOcc_cons q c t hp, hcnt]

theorem countOcc_replaceAll (q r : List Char) (hq : q ≠ []) (hr : r ≠ [])
    (hb : borderFree r = true) :
    ∀ n (s : List Char), s.length = n → ¬ r <:+: s →
      countOcc r (replaceAll q r s) = countOcc q s := by
  intro n
  induction n using Nat.strong_induction_on with
  | _ n ih =>
    intro s hn hnoR
    cases hsp : splitFirst q s with
    | none =>
      obtain ⟨h1, h2⟩ := splitFirst_none_spec q r hq s hsp
      rw [h2, h1]
      exact (countOcc_eq_zero_iff r hr s).mpr hnoR
    | some pr =>
      obtain ⟨u, v⟩ := pr
      obtain ⟨hs, hrep, hcnt⟩ := splitFirst_some_spec q r hq s u v hsp
      have huinf : u <:+: s := by
        rw [hs]
        exact (List.prefix_append u (q ++ v)).isInfix
      have hvinf : v <:+: s := by
        rw [hs, ← List.append_assoc]
        exact (List.suffix_append (u ++ q) v).isInfix
      have hnoRu : ¬ r <:+: u := fun hx => hnoR (hx.trans huinf)
      have hnoRv : ¬ r <:+: v := fun hx => hnoR (hx.trans hvinf)
      have hvlt : v.length < n := by
        rw [← hn, hs]
        rw [List.length_append, List.length_append]
        have := List.length_pos.mpr hq
        omega
      rw [hrep, countOcc_fresh_append r hr hb u (replaceAll q r v) hnoRu,
        ih v.length hvlt v rfl hnoRv, hcnt]

theorem linesPreserved_resolve (loc : List Char) (hq : pyreMarker ≠ []) :
    ∀ lines : List (List Char),
      linesPreserved lines (lines.map (replaceAll pyreMarker loc)) = true := by
  intro lines
  unfold linesPreserved
  rw [Bool.and_eq_true]
  constructor
  · rw [List.length_map]
    exact beq_self_eq_true _
  · induction lines with
    | nil => rfl
    | cons l ls ih =>
      rw [List.map_cons, List.zip_cons_cons, List.all_cons, Bool.and_eq_true]
      refine ⟨?_, ih⟩
      by_cases hz : countOcc pyreMarker l = 0
      · have hrep : replaceAll pyreMarker loc l = l :=
          replaceAll_of_no_occ pyreMarker loc hq l.length l rfl
            ((countOcc_eq_zero_iff pyreMarker hq l).mp hz)
        rw [Bool.or_eq_true]
        right
        rw [hrep]
        exact beq_self_eq_true l
      · rw [Bool.or_eq_true]
        left
        exact bne_iff_ne.mpr hz

/-- C7: after synchronizing a commit whose configuration file contains
the placeholder `PYRE_TEST_TYPESHED_LOCATION` a total of `N` times,
rewriting the file replaces every occurrence: the result contains zero
occurrences of the placeholder and exactly `N` occurrences of the
resolved stub path, and every line in which the placeholder did not
occur is byte-identical to the corresponding source line, in the same
order.  The hypotheses pin down a generic resolved path: it is
non-empty, shares no character with the all-caps placeholder (true of
ordinary lower-case temporary-directory paths), has no self-overlap
(border), and does not already occur in the file. -/
theorem C7_placeholder_substitution (loc : List Char) (lines : List (List Char)) (N : Nat)
    (h1 : loc ≠ [])
    (h2 : ∀ c ∈ loc, c ∉ pyreMarker)
    (h3 : borderFree loc = true)
    (h4 : ∀ l ∈ lines, countOcc loc l = 0)
    (h5 : fileCount pyreMarker lines = N) :
    fileCount pyreMarker (resolveTypeshedLocation loc lines) = 0 ∧
    fileCount loc (resolveTypeshedLocation loc lines) = N ∧
    linesPreserved lines (resolveTypeshedLocation loc lines) = true := by
  have hq : pyreMarker ≠ [] := by decide
  refine ⟨?_, ?_, ?_⟩
  · rw [resolveTypeshedLocation, fileCount, List.map_map]
    apply List.sum_eq_zero
    intro x hx
    obtain ⟨l, _, hxe⟩ := List.mem_map.mp hx
    rw [← hxe]
    show countOcc pyreMarker (replaceAll pyreMarker loc l) = 0
    exact (countOcc_eq_zero_iff pyreMarker hq _).mpr
      (no_occ_in_replaceAll pyreMarker loc hq h1 h2 l.length l rfl)
  · rw [resolveTypeshedLocation, fileCount, List.map_map]
    have hmap : lines.map (countOcc loc ∘ replaceAll pyreMarker loc) =
        lines.map (countOcc pyreMarker) := by
      apply List.map_congr_left
      intro l hl
      show countOcc loc (replaceAll pyreMarker loc l) = countOcc pyreMarker l
      exact countOcc_replaceAll pyreMarker loc hq h1 h3 l.length l rfl
        ((countOcc_eq_zero_iff loc h1 l).mp (h4 l hl))
    rw [hmap]
    simpa [fileCount] using h5
  · exact linesPreserved_resolve loc hq lines

theorem C7_placeholder_substitution_witness :
    fileCount pyreMarker (resolveTypeshedLocation ['/', 't'] [pyreMarker]) = 0 ∧
    fileCount ['/', 't'] (resolveTypeshedLocation ['/', 't'] [pyreMarker]) = 1 ∧
    linesPreserved [pyreMarker] (resolveTypeshedLocation ['/', 't'] [pyreMarker]) = true := by
  have hq : pyreMarker ≠ [] := by decide
  have hcpp : countOcc pyreMarker pyreMarker = 1 := by
    rw [countOcc_head_occ pyreMarker pyreMarker hq (List.prefix_refl pyreMarker),
      List.drop_length, countOcc_nil]
  refine C7_placeholder_substitution ['/', 't'] [pyreMarker] 1
    (by decide) (by decide) (by decide) ?_ ?_
  · intro l hl
    rw [List.mem_singleton] at hl
    subst hl
    exact (countOcc_eq_zero_iff ['/', 't'] (by decide) pyreMarker).mpr (by decide)
  · simp [fileCount, hcpp]
